import Mathlib

/-!
Verification development for the Memorandum in-memory key-value store.

The definitions below are a shallow embedding of the Go source:
* `crc32` embeds `hash/crc32.ChecksumIEEE` (bitwise form of the IEEE table
  algorithm, reflected polynomial `0xEDB88320`);
* `MapShard`, `setShard`, `deleteShard`, `cleanupShard` embed the shard
  operations of `server/db/store.go`, with the Go `container/heap`
  procedures (`up`, `down`, `Push`, `Pop`, `Remove`) embedded index by
  index on lists (`heapUp`, `heapDown`, `heapPushGo`, `heapPopGo`,
  `heapRemoveAtGo`);
* `Store` operations embed `ShardedInMemoryStore` (`Set`, `Get`, `Delete`,
  `Cleanup`, `RecoverFromWAL`);
* `CNode`, `addNode`, `removeNode`, `getNodes`, `setData` embed
  `cluster/manager/manager.go`.

Go `string` values are byte strings, embedded as `List (Fin 256)`;
Go `int64`/`int` time and TTL arithmetic is embedded as `Int` (no overflow
is relevant at the magnitudes involved); Go maps are embedded as
association lists with first-match lookup.  A Go runtime panic is embedded
as `Option.none` where a function can panic.
-/

namespace Memorandum

/-- Byte strings: the content of a Go `string` / `[]byte`. -/
abbrev ByteStr := List (Fin 256)

/-! ### CRC32-IEEE (`hash/crc32.ChecksumIEEE`) -/

/-- Reflected IEEE polynomial used by `hash/crc32`. -/
def crcPoly : Nat := 0xEDB88320

/-- One bit step of the reflected CRC32 algorithm. -/
def crcStepBit (c : Nat) : Nat :=
  if c % 2 = 1 then (c / 2) ^^^ crcPoly else c / 2

/-- Eight bit steps: one byte of CRC32 processing after the byte has been
xored into the low bits of the register. -/
def crcStep8 (c : Nat) : Nat := crcStepBit^[8] c

/-- Absorb one byte into the CRC register. -/
def crc32Update (c : Nat) (b : Fin 256) : Nat := crcStep8 (c ^^^ b.val)

/-- `crc32.ChecksumIEEE` over a byte string. -/
def crc32 (bs : ByteStr) : Nat :=
  (bs.foldl crc32Update 0xFFFFFFFF) ^^^ 0xFFFFFFFF

/-! ### Store data model (`server/db/store.go`, `server/db/heap.go`) -/

/-- `ValueWithTTL`: a value with its absolute expiration (Unix seconds);
`0` means the entry never expires. -/
structure ValueWithTTL where
  value : ByteStr
  expiration : Int
deriving DecidableEq, Repr, Inhabited

/-- A `heapEntry` of the expiry min-heap.  The Go struct also stores an
`index` field that `container/heap` keeps equal to the entry's position;
no code of the repository reads it (only `Swap`/`Pop` maintain it), so the
embedding drops the redundant field. -/
structure HeapEntry where
  key : ByteStr
  vtl : ValueWithTTL
deriving DecidableEq, Repr, Inhabited

/-- Expiration at index `i` of the heap slice (`h.Less` reads it). -/
def expAt (h : List HeapEntry) (i : Nat) : Int :=
  (h.getD i default).vtl.expiration

/-- `h.Swap(i, j)` of `container/heap` on a list. Go only calls it with
in-range indices; out of range the embedding is the identity. -/
def swapL (l : List HeapEntry) (i j : Nat) : List HeapEntry :=
  match l[i]?, l[j]? with
  | some a, some b => (l.set i b).set j a
  | _, _ => l

/-- `container/heap`'s `up(h, j)` sift-up loop, written as structural
recursion on a fuel bound.  The loop index strictly decreases, so `j + 1`
iterations always suffice and the zero-fuel branch is unreachable
(`heapUpFuel_adequate` makes the bound immaterial). -/
def heapUpFuel : Nat → List HeapEntry → Nat → List HeapEntry
  | 0, h, _ => h
  | fuel + 1, h, j =>
    if j = 0 then h
    else
      let i := (j - 1) / 2
      if expAt h j < expAt h i then heapUpFuel fuel (swapL h i j) i else h

/-- `container/heap`'s `up(h, j)`. -/
def heapUp (h : List HeapEntry) (j : Nat) : List HeapEntry :=
  heapUpFuel (j + 1) h j

/-- Child selection of `container/heap`'s `down`: prefer the right child
when it exists and compares smaller. -/
def pickChild (h : List HeapEntry) (j1 n : Nat) : Nat :=
  if j1 + 1 < n ∧ expAt h (j1 + 1) < expAt h j1 then j1 + 1 else j1

/-- `container/heap`'s `down(h, i, n)` sift-down loop as structural
recursion on a fuel bound; returns the new slice and the final index (Go
returns `i > i0`).  The index strictly increases and stays below `n`, so
`n` iterations always suffice (`heapDownFuel_adequate`). -/
def heapDownFuel : Nat → List HeapEntry → Nat → Nat → List HeapEntry × Nat
  | 0, h, i, _ => (h, i)
  | fuel + 1, h, i, n =>
    if n ≤ 2 * i + 1 then (h, i)
    else
      let j := pickChild h (2 * i + 1) n
      if expAt h j < expAt h i then heapDownFuel fuel (swapL h i j) j n else (h, i)

/-- `container/heap`'s `down(h, i, n)`. -/
def heapDown (h : List HeapEntry) (i n : Nat) : List HeapEntry × Nat :=
  heapDownFuel n h i n

/-- `heap.Push`: append, then sift the new element up. -/
def heapPushGo (h : List HeapEntry) (e : HeapEntry) : List HeapEntry :=
  heapUp (h ++ [e]) h.length

/-- `heap.Pop`: swap the root with the last slot, sift down over the
shortened prefix, then remove and return the last slot.  Go panics on an
empty heap; every call site guards `Len() > 0`. -/
def heapPopGo (h : List HeapEntry) : HeapEntry × List HeapEntry :=
  match h with
  | [] => (default, [])
  | _ :: _ =>
    let n := h.length - 1
    let h2 := (heapDown (swapL h 0 n) 0 n).1
    (h2.getD n default, h2.take n)

/-- `heap.Remove(h, i)` with the returned element discarded, as in
`MinHeap.RemoveByKey`. -/
def heapRemoveAtGo (h : List HeapEntry) (i : Nat) : List HeapEntry :=
  let n := h.length - 1
  if n = i then h.take n
  else
    let h1 := swapL h i n
    let d := heapDown h1 i n
    let h3 := if i < d.2 then d.1 else heapUp d.1 i
    h3.take n

/-- `MinHeap.RemoveByKey`: linear scan for the first entry with the key,
then `heap.Remove` at its position. -/
def removeByKey (h : List HeapEntry) (k : ByteStr) : List HeapEntry :=
  match h.findIdx? (fun e => e.key == k) with
  | none => h
  | some i => heapRemoveAtGo h i

/-- First-match lookup in an association list (a Go map read). -/
def lookupA (m : List (ByteStr × ValueWithTTL)) (k : ByteStr) : Option ValueWithTTL :=
  match m with
  | [] => none
  | (k', v) :: rest => if k' = k then some v else lookupA rest k

/-- Go `delete(m, k)`. -/
def eraseA (m : List (ByteStr × ValueWithTTL)) (k : ByteStr) : List (ByteStr × ValueWithTTL) :=
  m.filter (fun p => p.1 ≠ k)

/-- Go `m[k] = v`. -/
def insertA (m : List (ByteStr × ValueWithTTL)) (k : ByteStr) (v : ValueWithTTL) : List (ByteStr × ValueWithTTL) :=
  (k, v) :: eraseA m k

/-- One `mapShard`: the key→value map and the expiry heap. -/
structure MapShard where
  store : List (ByteStr × ValueWithTTL)
  heap : List HeapEntry
deriving DecidableEq, Repr, Inhabited

/-- Shard part of `ShardedInMemoryStore.Set`: remove the key's heap node if
the key is present, compute the expiration (`0` stays `0`, otherwise
`now + ttl`), store the entry, and unconditionally push a heap node. -/
def setShard (sh : MapShard) (k v : ByteStr) (ttl now : Int) : MapShard :=
  let h1 := if (lookupA sh.store k).isSome then removeByKey sh.heap k else sh.heap
  let expiration : Int := if ttl = 0 then 0 else now + ttl
  { store := insertA sh.store k ⟨v, expiration⟩
    heap := heapPushGo h1 ⟨k, ⟨v, expiration⟩⟩ }

/-- Shard part of `ShardedInMemoryStore.Delete`. -/
def deleteShard (sh : MapShard) (k : ByteStr) : MapShard :=
  { store := eraseA sh.store k, heap := removeByKey sh.heap k }

/-- The loop of `ShardedInMemoryStore.Cleanup` for one shard, as
structural recursion on a fuel bound: pop the minimum; if its expiration
is in the future push it back and stop; otherwise delete the map entry
only when the popped expiration is positive and strictly past.  Each
iteration shortens the heap by one node, so `sh.heap.length` iterations
always suffice (`cleanupLoop_adequate`). -/
def cleanupLoop : Nat → MapShard → Int → MapShard
  | 0, sh, _ => sh
  | fuel + 1, sh, now =>
    if sh.heap = [] then sh
    else
      let p := heapPopGo sh.heap
      if now < p.1.vtl.expiration then
        { sh with heap := heapPushGo p.2 p.1 }
      else
        let st' := if 0 < p.1.vtl.expiration ∧ p.1.vtl.expiration < now then eraseA sh.store p.1.key else sh.store
        cleanupLoop fuel { store := st', heap := p.2 } now

/-- Shard part of `ShardedInMemoryStore.Cleanup`. -/
def cleanupShard (sh : MapShard) (now : Int) : MapShard :=
  cleanupLoop sh.heap.length sh now

/-- `ShardedInMemoryStore`: the shard slice.  `numShards` is kept separate
from the slice so that the embedding mirrors the two Go fields. -/
structure Store where
  numShards : Nat
  shards : List MapShard
deriving DecidableEq, Repr

/-- `NewShardedInMemoryStore n`: `n` empty shards (`heap.Init` on an empty
heap is the identity). -/
def emptyStore (n : Nat) : Store :=
  ⟨n, List.replicate n ⟨[], []⟩⟩

/-- `getShard`: `int(crc32.ChecksumIEEE(key)) % numShards` (the `uint32`
hash is non-negative as a Go `int`). -/
def shardIdx (s : Store) (k : ByteStr) : Nat := crc32 k % s.numShards

/-- Update one shard in place. -/
def modifyShard (s : Store) (i : Nat) (f : MapShard → MapShard) : Store :=
  match s.shards[i]? with
  | some sh => { s with shards := s.shards.set i (f sh) }
  | none => s

/-- `Set(key, value, ttl)` on the store (state part; WAL emission is
modelled by `walRecordOf`). -/
def setStore (s : Store) (k v : ByteStr) (ttl now : Int) : Store :=
  modifyShard s (shardIdx s k) (fun sh => setShard sh k v ttl now)

/-- `Delete(key)` on the store (state part). -/
def deleteStore (s : Store) (k : ByteStr) : Store :=
  modifyShard s (shardIdx s k) (fun sh => deleteShard sh k)

/-- `Cleanup()` over every shard. -/
def cleanupStore (s : Store) (now : Int) : Store :=
  { s with shards := s.shards.map (fun sh => cleanupShard sh now) }

/-- Map lookup through the shard of the key. -/
def lookupStore (s : Store) (k : ByteStr) : Option ValueWithTTL :=
  match s.shards[shardIdx s k]? with
  | some sh => lookupA sh.store k
  | none => none

/-- `Get(key)`: the returned `(value, present)` pair and the store after
the call (an expired entry is deleted on the read path). -/
def getStore (s : Store) (k : ByteStr) (now : Int) : (ByteStr × Bool) × Store :=
  match lookupStore s k with
  | none => (([], false), s)
  | some v =>
    if 0 < v.expiration ∧ v.expiration < now then (([], false), deleteStore s k)
    else ((v.value, true), s)

/-- The `(value, present)` observation of `Get`. -/
def getVal (s : Store) (k : ByteStr) (now : Int) : ByteStr × Bool :=
  (getStore s k now).1

/-! ### Write-ahead log (`server/db/store.go`) -/

/-- A decoded `WriteAheadLogEntry`. -/
structure WEntry where
  action : ByteStr
  key : ByteStr
  value : ByteStr
  ttl : Int
  timestamp : Int
  checksum : Nat
deriving DecidableEq, Repr

/-- The bytes of the literal string `"set"`. -/
def actSet : ByteStr := [115, 101, 116]

/-- The bytes of the literal string `"delete"`. -/
def actDelete : ByteStr := [100, 101, 108, 101, 116, 101]

/-- Checksum validation of `RecoverFromWAL`:
`entry.Checksum == crc32.ChecksumIEEE(entry.Key + entry.Value)`. -/
def checkEntry (e : WEntry) : Bool :=
  e.checksum == crc32 (e.key ++ e.value)

/-- The skip test of `RecoverFromWAL`:
`entry.TTL != 0 && entry.IsExpired()`, where `IsExpired` is
`now > entry.Timestamp + entry.TTL`. -/
def entrySkipped (e : WEntry) (now : Int) : Bool :=
  e.ttl != 0 && decide (e.timestamp + e.ttl < now)

/-- The `switch entry.Action` of `RecoverFromWAL`: `"set"` and `"delete"`
are applied, any other action falls through the switch. -/
def applyEntry (st : Store) (e : WEntry) (now : Int) : Store :=
  if e.action = actSet then setStore st e.key e.value e.ttl now
  else if e.action = actDelete then deleteStore st e.key
  else st

/-- The replay loop of `RecoverFromWAL` over the decoded records: fail on
the first checksum mismatch, skip expired records, apply the rest. -/
def recoverList (wal : List WEntry) (now : Int) (st : Store) : Except WEntry Store :=
  match wal with
  | [] => .ok st
  | e :: rest =>
    if checkEntry e then
      if entrySkipped e now then recoverList rest now st
      else recoverList rest now (applyEntry st e now)
    else .error e

/-- A store operation together with the wall-clock second it runs at. -/
inductive Op where
  | set (k v : ByteStr) (ttl : Int)
  | del (k : ByteStr)
deriving DecidableEq, Repr

/-- State effect of one operation (`Set` and `Delete` of the store). -/
def applyOp (st : Store) (o : Op × Int) : Store :=
  match o with
  | (.set k v ttl, t) => setStore st k v ttl t
  | (.del k, t) => deleteStore st k

/-- Run a sequence of timestamped operations. -/
def runOps (st : Store) (ops : List (Op × Int)) : Store :=
  ops.foldl applyOp st

/-- The WAL record an operation emits (`Set` logs action `"set"` with the
value and TTL; `Delete` logs action `"delete"` with zero value and TTL;
the queue processor fills in `crc32(key + value)`). -/
def walRecordOf (o : Op × Int) : WEntry :=
  match o with
  | (.set k v ttl, t) => ⟨actSet, k, v, ttl, t, crc32 (k ++ v)⟩
  | (.del k, t) => ⟨actDelete, k, [], 0, t, crc32 (k ++ [])⟩

/-- The WAL content a sequence of operations produces (records are
flushed in enqueue order by the single queue consumer). -/
def walOf (ops : List (Op × Int)) : List WEntry :=
  ops.map walRecordOf

/-- The key an operation touches. -/
def opKey (o : Op × Int) : ByteStr :=
  match o.1 with
  | .set k _ _ => k
  | .del k => k

/-- Whether replay at time `now` would skip the record of this operation
(`ttl ≠ 0` and `timestamp + ttl < now`; a `Delete` record carries
`ttl = 0` and is never skipped). -/
def opSkipped (o : Op × Int) (now : Int) : Bool :=
  match o with
  | (.set _ _ ttl, t) => ttl != 0 && decide (t + ttl < now)
  | (.del _, _) => false

/-! ### Cluster manager (`cluster/manager/manager.go`) -/

/-- A registry `Node`. -/
structure CNode where
  address : String
  active : Bool
  index : Int
deriving DecidableEq, Repr, Inhabited

/-- The active subset of the registry, in registry order. -/
def activeNodes (ns : List CNode) : List CNode :=
  ns.filter (fun n => n.active)

/-- `GetNodes(key, replicas)`.  Result `none` embeds the Go runtime panic:
with a non-empty registry and no active node, `(primaryIdx + i) %
len(active)` divides by zero on the first loop iteration (the loop body
runs whenever `replicas ≥ 0`). -/
def getNodes (ns : List CNode) (key : ByteStr) (replicas : Int) : Option (List CNode) :=
  if ns.isEmpty then some []
  else
    let primary := crc32 key % ns.length
    let active := activeNodes ns
    let iters := (replicas + 1).toNat
    if active.isEmpty then
      if 0 < iters then none else some []
    else
      some ((List.range iters).filterMap (fun i =>
        let idx := (primary + i) % active.length
        if h : idx < active.length then some (active.get ⟨idx, h⟩) else none))

/-- `AddNode(address)`: re-activate in place the first entry with this
address (the write goes to `Nodes[node.Index]`), else append a node with
`Index = len(Nodes)`. -/
def addNode (ns : List CNode) (addr : String) : List CNode :=
  match ns.findIdx? (fun n => n.address == addr) with
  | some p =>
    let node := ns.getD p default
    ns.set node.index.toNat ⟨addr, true, node.index⟩
  | none => ns ++ [⟨addr, true, (ns.length : Int)⟩]

/-- `RemoveNode(address)`: drop the first entry with this address and
renumber the trailing indices. -/
def removeNode (ns : List CNode) (addr : String) : List CNode :=
  match ns.findIdx? (fun n => n.address == addr) with
  | none => ns
  | some i =>
    (ns.eraseIdx i).mapIdx (fun j n => if i ≤ j then { n with index := (j : Int) } else n)

/-- Registry states the cluster manager can reach: empty at start, then
`AddNode`, `RemoveNode`, and the health checker marking any subset of
addresses inactive. -/
inductive ReachReg : List CNode → Prop
  | nil : ReachReg []
  | add (a : String) : ReachReg ns → ReachReg (addNode ns a)
  | remove (a : String) : ReachReg ns → ReachReg (removeNode ns a)
  | health (p : String → Bool) : ReachReg ns →
      ReachReg (ns.map (fun n => if p n.address then { n with active := false } else n))

/-- Outcome of one RPC interaction with a node address. -/
inductive RpcOutcome where
  | dialErr
  | callErr
  | resp (success : Bool)
deriving DecidableEq, Repr

/-- Errors `SetData` can return. -/
inductive SetErr where
  | noActiveNodes
  | nodeFailed (addr : String)
deriving DecidableEq, Repr

deriving instance DecidableEq for Except

/-- The per-key replica loop of `SetData`: inactive nodes, dial errors and
call errors are skipped with `continue`; a reply with `Success == false`
aborts with `"node %s failed to set key"`. -/
def setKeyFan (nodes : List CNode) (env : String → RpcOutcome) : Except SetErr Unit :=
  match nodes with
  | [] => .ok ()
  | n :: rest =>
    if n.active then
      match env n.address with
      | .dialErr => setKeyFan rest env
      | .callErr => setKeyFan rest env
      | .resp true => setKeyFan rest env
      | .resp false => .error (.nodeFailed n.address)
    else setKeyFan rest env

/-- `NodeService.SetData`: for each key take the replica set (`none`
propagates the `GetNodes` panic), fail with `"no active nodes available"`
when it is empty, run the replica loop, abort on its error; on reaching
the end set `*reply = true`. -/
def setData (registry : List CNode) (replicas : Int) (data : List (ByteStr × ByteStr))
    (env : String → RpcOutcome) : Option (Except SetErr Bool) :=
  match data with
  | [] => some (.ok true)
  | (k, _) :: rest =>
    match getNodes registry k replicas with
    | none => none
    | some nodes =>
      if nodes.isEmpty then some (.error .noActiveNodes)
      else
        match setKeyFan nodes env with
        | .error e => some (.error e)
        | .ok _ => setData registry replicas rest env

/-! ### Invariants and reachability -/

/-- Shape facts every store built by `NewShardedInMemoryStore` with a
positive shard count satisfies. -/
def WFStore (s : Store) : Prop :=
  0 < s.numShards ∧ s.shards.length = s.numShards

/-- Number of heap nodes that reference a key. -/
def keyCount (h : List HeapEntry) (k : ByteStr) : Nat :=
  h.countP (fun e => e.key == k)

/-- Every heap node references a key that is currently in the shard's map
with exactly the node's value and expiration. -/
def HeapMatches (sh : MapShard) : Prop :=
  ∀ e ∈ sh.heap, lookupA sh.store e.key = some e.vtl

/-- Shard invariant: heap nodes match live map entries and no key has two
heap nodes. -/
def InvShard (sh : MapShard) : Prop :=
  HeapMatches sh ∧ ∀ k, keyCount sh.heap k ≤ 1

/-- Store invariant: every shard satisfies `InvShard`. -/
def StoreInv (s : Store) : Prop :=
  ∀ sh ∈ s.shards, InvShard sh

/-- Store states reachable through the public operations (`Set`, `Get`,
`Delete`, `Cleanup`; `RecoverFromWAL` only calls `Set` and `Delete`, so
recovery states are covered by closure). -/
inductive Reach : Store → Prop
  | empty (n : Nat) : Reach (emptyStore n)
  | set (k v : ByteStr) (ttl now : Int) : Reach s → Reach (setStore s k v ttl now)
  | del (k : ByteStr) : Reach s → Reach (deleteStore s k)
  | get (k : ByteStr) (now : Int) : Reach s → Reach (getStore s k now).2
  | cleanup (now : Int) : Reach s → Reach (cleanupStore s now)

/-- The subsequence of operations that touch a key. -/
def keyOps (k : ByteStr) (ops : List (Op × Int)) : List (Op × Int) :=
  ops.filter (fun o => opKey o == k)

/-- The map entry a single operation leaves for its key. -/
def opFinal (o : Op × Int) : Option ValueWithTTL :=
  match o with
  | (.set _ v ttl, t) => some ⟨v, if ttl = 0 then 0 else t + ttl⟩
  | (.del _, _) => none

/-- The map entry a single replayed WAL record leaves for its key, when it
is applied at time `now` (actions other than `"set"`/`"delete"` do not
occur in a WAL this code writes). -/
def entryFinal (e : WEntry) (now : Int) : Option ValueWithTTL :=
  if e.action = actSet then some ⟨e.value, if e.ttl = 0 then 0 else now + e.ttl⟩ else none

/-- Dense positional indexing of the node registry: every node records its
own position. -/
def IdxInv (ns : List CNode) : Prop :=
  ∀ i (h : i < ns.length), (ns.get ⟨i, h⟩).index = (i : Int)

end Memorandum

namespace Memorandum

/-! ### CRC32 lemmas: bounds, injectivity, single-byte-flip detection -/

theorem crcStepBit_lt {c : Nat} (h : c < 2 ^ 32) : crcStepBit c < 2 ^ 32 := by
  unfold crcStepBit
  split
  · exact Nat.xor_lt_two_pow (Nat.lt_of_le_of_lt (Nat.div_le_self c 2) h) (by decide)
  · exact Nat.lt_of_le_of_lt (Nat.div_le_self c 2) h

theorem xor_cancel_right {a b p : Nat} (h : a ^^^ p = b ^^^ p) : a = b := by
  have := congrArg (fun x => x ^^^ p) h
  simpa [Nat.xor_assoc] using this

theorem xor_cancel_left {a x y : Nat} (h : a ^^^ x = a ^^^ y) : x = y := by
  have := congrArg (fun z => a ^^^ z) h
  simpa [← Nat.xor_assoc] using this

theorem half_lt_two_pow_31 {c : Nat} (h : c < 2 ^ 32) : c / 2 < 2 ^ 31 := by
  omega

theorem xor_poly_testBit31 {x : Nat} (hx : x < 2 ^ 31) :
    (x ^^^ crcPoly).testBit 31 = true := by
  rw [Nat.testBit_xor, Nat.testBit_lt_two_pow hx]
  decide

theorem crcStepBit_inj {c d : Nat} (hc : c < 2 ^ 32) (hd : d < 2 ^ 32)
    (h : crcStepBit c = crcStepBit d) : c = d := by
  unfold crcStepBit at h
  by_cases pc : c % 2 = 1 <;> by_cases pd : d % 2 = 1 <;> simp [pc, pd] at h
  · omega
  · exfalso
    have h1 : (c / 2 ^^^ crcPoly).testBit 31 = true :=
      xor_poly_testBit31 (half_lt_two_pow_31 hc)
    rw [h] at h1
    rw [Nat.testBit_lt_two_pow (half_lt_two_pow_31 hd)] at h1
    exact Bool.false_ne_true h1
  · exfalso
    have h1 : (d / 2 ^^^ crcPoly).testBit 31 = true :=
      xor_poly_testBit31 (half_lt_two_pow_31 hd)
    rw [← h] at h1
    rw [Nat.testBit_lt_two_pow (half_lt_two_pow_31 hc)] at h1
    exact Bool.false_ne_true h1
  · omega

theorem crcStepBit_iter_lt {c : Nat} (n : Nat) (h : c < 2 ^ 32) :
    crcStepBit^[n] c < 2 ^ 32 := by
  induction n generalizing c with
  | zero => simpa using h
  | succ m ih =>
    rw [Function.iterate_succ_apply]
    exact ih (crcStepBit_lt h)

theorem crcStepBit_iter_inj {c d : Nat} (n : Nat) (hc : c < 2 ^ 32) (hd : d < 2 ^ 32)
    (h : crcStepBit^[n] c = crcStepBit^[n] d) : c = d := by
  induction n generalizing c d with
  | zero => simpa using h
  | succ m ih =>
    rw [Function.iterate_succ_apply, Function.iterate_succ_apply] at h
    exact crcStepBit_inj hc hd (ih (crcStepBit_lt hc) (crcStepBit_lt hd) h)

theorem crc32Update_lt {c : Nat} (b : Fin 256) (h : c < 2 ^ 32) :
    crc32Update c b < 2 ^ 32 := by
  unfold crc32Update crcStep8
  exact crcStepBit_iter_lt 8 (Nat.xor_lt_two_pow h (Nat.lt_trans b.isLt (by decide)))

theorem crc32Update_injL {c d : Nat} (b : Fin 256) (hc : c < 2 ^ 32) (hd : d < 2 ^ 32)
    (h : crc32Update c b = crc32Update d b) : c = d := by
  unfold crc32Update crcStep8 at h
  have hb : (b : Nat) < 2 ^ 32 := Nat.lt_trans b.isLt (by decide)
  exact xor_cancel_right
    (crcStepBit_iter_inj 8 (Nat.xor_lt_two_pow hc hb) (Nat.xor_lt_two_pow hd hb) h)

theorem crc32Update_injB {c : Nat} {b b' : Fin 256} (hc : c < 2 ^ 32) (hne : b ≠ b')
    (h : crc32Update c b = crc32Update c b') : False := by
  unfold crc32Update crcStep8 at h
  have hb : (b : Nat) < 2 ^ 32 := Nat.lt_trans b.isLt (by decide)
  have hb' : (b' : Nat) < 2 ^ 32 := Nat.lt_trans b'.isLt (by decide)
  have := xor_cancel_left
    (crcStepBit_iter_inj 8 (Nat.xor_lt_two_pow hc hb) (Nat.xor_lt_two_pow hc hb') h)
  exact hne (Fin.val_injective this)

theorem foldl_crc32Update_lt {c : Nat} (bs : ByteStr) (h : c < 2 ^ 32) :
    bs.foldl crc32Update c < 2 ^ 32 := by
  induction bs generalizing c with
  | nil => simpa using h
  | cons b rest ih => exact ih (crc32Update_lt b h)

theorem foldl_crc32Update_inj {c d : Nat} (bs : ByteStr) (hc : c < 2 ^ 32) (hd : d < 2 ^ 32)
    (h : bs.foldl crc32Update c = bs.foldl crc32Update d) : c = d := by
  induction bs generalizing c d with
  | nil => simpa using h
  | cons b rest ih =>
    simp only [List.foldl_cons] at h
    exact crc32Update_injL b hc hd (ih (crc32Update_lt b hc) (crc32Update_lt b hd) h)

/-- CRC32-IEEE detects every single-byte substitution. -/
theorem crc32_flip_byte_ne (p s : ByteStr) {b b' : Fin 256} (hne : b ≠ b') :
    crc32 (p ++ b :: s) ≠ crc32 (p ++ b' :: s) := by
  intro h
  unfold crc32 at h
  have h2 := xor_cancel_right h
  rw [List.foldl_append, List.foldl_append, List.foldl_cons, List.foldl_cons] at h2
  have hc : p.foldl crc32Update 0xFFFFFFFF < 2 ^ 32 :=
    foldl_crc32Update_lt p (by decide)
  exact crc32Update_injB hc hne
    (foldl_crc32Update_inj s (crc32Update_lt b hc) (crc32Update_lt b' hc) h2)

/-! ### List and heap permutation lemmas -/

theorem count_set_add {α : Type} [DecidableEq α] :
    ∀ (l : List α) (i : Nat) (a x : α) (h : i < l.length),
    (l.set i a).count x + (if l.get ⟨i, h⟩ = x then 1 else 0)
      = l.count x + (if a = x then 1 else 0) := by
  intro l
  induction l with
  | nil => intro i a x h; simp at h
  | cons y tl ih =>
    intro i a x h
    cases i with
    | zero =>
      simp only [List.set_cons_zero, List.count_cons, List.get, beq_iff_eq]
      split_ifs <;> omega
    | succ n =>
      have hn : n < tl.length := by simpa using h
      have := ih n a x hn
      simp only [List.set_cons_succ, List.count_cons, List.get, beq_iff_eq]
      split_ifs at this ⊢ <;> omega

theorem swapL_perm (l : List HeapEntry) (i j : Nat) : (swapL l i j).Perm l := by
  unfold swapL
  split
  case h_2 => exact List.Perm.refl l
  case h_1 a b hi hj =>
    obtain ⟨hi', ha⟩ := List.getElem?_eq_some_iff.mp hi
    obtain ⟨hj', hb⟩ := List.getElem?_eq_some_iff.mp hj
    rw [List.perm_iff_count]
    intro x
    have e1 := count_set_add l i b x hi'
    have e2 := count_set_add (l.set i b) j a x (by simpa using hj')
    by_cases hij : i = j
    · subst hij
      have hab : a = b := by rw [← ha, ← hb]
      rw [List.get_eq_getElem] at e1 e2
      rw [List.getElem_set_self] at e2
      subst hab ha
      split_ifs at e1 e2 ⊢ <;> omega
    · rw [List.get_eq_getElem] at e1 e2
      rw [List.getElem_set_ne hij] at e2
      subst ha hb
      split_ifs at e1 e2 ⊢ <;> omega

theorem swapL_length (l : List HeapEntry) (i j : Nat) : (swapL l i j).length = l.length :=
  (swapL_perm l i j).length_eq

theorem swapL_getElem?_other (l : List HeapEntry) (i j m : Nat) (hmi : m ≠ i) (hmj : m ≠ j) :
    (swapL l i j)[m]? = l[m]? := by
  unfold swapL
  split
  · rw [List.getElem?_set_ne (fun he => hmj he.symm), List.getElem?_set_ne (fun he => hmi he.symm)]
  · rfl

theorem heapUpFuel_perm (fuel : Nat) (h : List HeapEntry) (j : Nat) :
    (heapUpFuel fuel h j).Perm h := by
  induction fuel generalizing h j with
  | zero => exact List.Perm.refl h
  | succ fu ih =>
    unfold heapUpFuel
    by_cases hj : j = 0
    · rw [if_pos hj]
    · rw [if_neg hj]
      dsimp only
      split
      · exact (ih _ _).trans (swapL_perm h _ j)
      · exact List.Perm.refl h

theorem heapUp_perm (h : List HeapEntry) (j : Nat) : (heapUp h j).Perm h :=
  heapUpFuel_perm (j + 1) h j

theorem heapUpFuel_adequate (f1 : Nat) : ∀ (f2 : Nat) (h : List HeapEntry) (j : Nat),
    j < f1 → j < f2 → heapUpFuel f1 h j = heapUpFuel f2 h j := by
  induction f1 with
  | zero =>
    intro f2 h j h1 h2
    omega
  | succ fu ih =>
    intro f2 h j h1 h2
    cases f2 with
    | zero => omega
    | succ f2' =>
      unfold heapUpFuel
      by_cases hj : j = 0
      · rw [if_pos hj, if_pos hj]
      · rw [if_neg hj, if_neg hj]
        dsimp only
        split
        · exact ih f2' _ _ (by omega) (by omega)
        · rfl

theorem heapUpFuel_getElem?_above (fuel : Nat) (h : List HeapEntry) (j m : Nat)
    (hm : j < m) : (heapUpFuel fuel h j)[m]? = h[m]? := by
  induction fuel generalizing h j with
  | zero => rfl
  | succ fu ih =>
    unfold heapUpFuel
    by_cases hj : j = 0
    · rw [if_pos hj]
    · rw [if_neg hj]
      dsimp only
      split
      · have hij : (j - 1) / 2 < j :=
          Nat.lt_of_le_of_lt (Nat.div_le_self _ _) (Nat.sub_lt (Nat.pos_of_ne_zero hj) Nat.one_pos)
        rw [ih _ _ (Nat.lt_trans hij hm)]
        exact swapL_getElem?_other h _ j m
          (Nat.ne_of_gt (Nat.lt_trans hij hm)) (Nat.ne_of_gt hm)
      · rfl

theorem heapUp_getElem?_above (h : List HeapEntry) (j m : Nat) (hm : j < m) :
    (heapUp h j)[m]? = h[m]? :=
  heapUpFuel_getElem?_above (j + 1) h j m hm

theorem pickChild_bounds (h : List HeapEntry) (i n : Nat) (hle : ¬n ≤ 2 * i + 1) :
    i < pickChild h (2 * i + 1) n ∧ pickChild h (2 * i + 1) n < n := by
  unfold pickChild
  split <;> omega

theorem heapDownFuel_perm (fuel : Nat) (h : List HeapEntry) (i n : Nat) :
    ((heapDownFuel fuel h i n).1).Perm h := by
  induction fuel generalizing h i with
  | zero => exact List.Perm.refl h
  | succ fu ih =>
    unfold heapDownFuel
    by_cases hle : n ≤ 2 * i + 1
    · rw [if_pos hle]
    · rw [if_neg hle]
      dsimp only
      split
      · exact (ih _ _).trans (swapL_perm h i _)
      · exact List.Perm.refl h

theorem heapDown_perm (h : List HeapEntry) (i n : Nat) : ((heapDown h i n).1).Perm h :=
  heapDownFuel_perm n h i n

theorem heapDownFuel_adequate (f1 : Nat) : ∀ (f2 : Nat) (h : List HeapEntry) (i n : Nat),
    n - i ≤ f1 → n - i ≤ f2 → heapDownFuel f1 h i n = heapDownFuel f2 h i n := by
  induction f1 with
  | zero =>
    intro f2 h i n h1 h2
    cases f2 with
    | zero => rfl
    | succ f2' =>
      unfold heapDownFuel
      rw [if_pos (by omega)]
  | succ fu ih =>
    intro f2 h i n h1 h2
    cases f2 with
    | zero =>
      unfold heapDownFuel
      rw [if_pos (by omega)]
    | succ f2' =>
      unfold heapDownFuel
      by_cases hle : n ≤ 2 * i + 1
      · rw [if_pos hle, if_pos hle]
      · rw [if_neg hle, if_neg hle]
        obtain ⟨hij, hjn⟩ := pickChild_bounds h i n hle
        dsimp only
        split
        · exact ih f2' _ _ n (by omega) (by omega)
        · rfl

theorem heapDownFuel_getElem?_ge (fuel : Nat) (h : List HeapEntry) (i n m : Nat)
    (hm : n ≤ m) : ((heapDownFuel fuel h i n).1)[m]? = h[m]? := by
  induction fuel generalizing h i with
  | zero => rfl
  | succ fu ih =>
    unfold heapDownFuel
    by_cases hle : n ≤ 2 * i + 1
    · rw [if_pos hle]
    · rw [if_neg hle]
      obtain ⟨hij, hjn⟩ := pickChild_bounds h i n hle
      dsimp only
      split
      · rw [ih _ _]
        exact swapL_getElem?_other h i _ m
          (Nat.ne_of_gt (Nat.lt_of_lt_of_le (Nat.lt_trans hij hjn) hm))
          (Nat.ne_of_gt (Nat.lt_of_lt_of_le hjn hm))
      · rfl

theorem heapDown_getElem?_ge (h : List HeapEntry) (i n m : Nat) (hm : n ≤ m) :
    ((heapDown h i n).1)[m]? = h[m]? :=
  heapDownFuel_getElem?_ge n h i n m hm

theorem heapPushGo_perm (h : List HeapEntry) (e : HeapEntry) :
    (heapPushGo h e).Perm (e :: h) :=
  (heapUp_perm (h ++ [e]) h.length).trans (List.perm_append_singleton e h)

theorem swapL_getElem?_right (l : List HeapEntry) (i j : Nat) (hi : i < l.length)
    (hj : j < l.length) : (swapL l i j)[j]? = some (l.get ⟨i, hi⟩) := by
  unfold swapL
  rw [List.getElem?_eq_getElem hi, List.getElem?_eq_getElem hj]
  simp only [List.get_eq_getElem]
  rw [List.getElem?_eq_getElem (by simpa using hj)]
  rw [List.getElem_set_self]

theorem cons_take_perm (l : List HeapEntry) (n : Nat) (hn : l.length = n + 1)
    (x : HeapEntry) (hx : l[n]? = some x) : (x :: l.take n).Perm l := by
  obtain ⟨hn', hget⟩ := List.getElem?_eq_some_iff.mp hx
  have h3 : l.drop (n + 1) = [] := List.drop_eq_nil_of_le (by omega)
  have h2 : l.drop n = [x] := by
    rw [List.drop_eq_getElem_cons hn', hget, h3]
  have h1 : l.take n ++ [x] = l := by
    have h4 := List.take_append_drop n l
    rw [h2] at h4
    exact h4
  have h5 : (l.take n ++ [x]).Perm l := by rw [h1]
  exact (List.perm_append_singleton x (l.take n)).symm.trans h5

theorem heapPopGo_cons (e0 : HeapEntry) (tl : List HeapEntry) :
    heapPopGo (e0 :: tl) =
      (((heapDown (swapL (e0 :: tl) 0 tl.length) 0 tl.length).1).getD tl.length default,
       ((heapDown (swapL (e0 :: tl) 0 tl.length) 0 tl.length).1).take tl.length) := by
  simp [heapPopGo]

theorem heapPopGo_spec (h : List HeapEntry) (hne : h ≠ []) :
    ((heapPopGo h).1 :: (heapPopGo h).2).Perm h := by
  cases h with
  | nil => exact absurd rfl hne
  | cons e0 tl =>
    rw [heapPopGo_cons]
    have hlen : (e0 :: tl).length = tl.length + 1 := by simp
    have hperm : ((heapDown (swapL (e0 :: tl) 0 tl.length) 0 tl.length).1).Perm (e0 :: tl) :=
      (heapDown_perm _ 0 tl.length).trans (swapL_perm (e0 :: tl) 0 tl.length)
    have hlen2 : ((heapDown (swapL (e0 :: tl) 0 tl.length) 0 tl.length).1).length = tl.length + 1 := by
      rw [hperm.length_eq, hlen]
    have helem : ((heapDown (swapL (e0 :: tl) 0 tl.length) 0 tl.length).1)[tl.length]? =
        some ((e0 :: tl).get ⟨0, by simp⟩) := by
      rw [heapDown_getElem?_ge _ 0 tl.length tl.length (Nat.le_refl _)]
      exact swapL_getElem?_right (e0 :: tl) 0 tl.length (by simp) (by simp)
    have hgetD : ((heapDown (swapL (e0 :: tl) 0 tl.length) 0 tl.length).1).getD tl.length default =
        (e0 :: tl).get ⟨0, by simp⟩ := by
      rw [List.getD_eq_getElem?_getD, helem]
      rfl
    rw [hgetD]
    have := cons_take_perm _ tl.length hlen2 _ helem
    exact this.trans hperm

theorem heapPopGo_length (h : List HeapEntry) (hne : h ≠ []) :
    (heapPopGo h).2.length = h.length - 1 := by
  have := (heapPopGo_spec h hne).length_eq
  simp only [List.length_cons] at this
  omega

theorem heapRemoveAtGo_perm (h : List HeapEntry) (i : Nat) (hi : i < h.length) :
    (h.get ⟨i, hi⟩ :: heapRemoveAtGo h i).Perm h := by
  unfold heapRemoveAtGo
  by_cases hni : h.length - 1 = i
  · simp only [hni, if_true, reduceIte]
    exact cons_take_perm h i (by omega) _ (by
      rw [List.getElem?_eq_getElem hi]
      simp)
  · simp only [hni, if_false, reduceIte]
    have hin : i < h.length - 1 := by omega
    have hperm1 : ((heapDown (swapL h i (h.length - 1)) i (h.length - 1)).1).Perm h :=
      (heapDown_perm _ i (h.length - 1)).trans (swapL_perm h i (h.length - 1))
    set d := heapDown (swapL h i (h.length - 1)) i (h.length - 1) with hd
    have helem1 : d.1[h.length - 1]? = some (h.get ⟨i, hi⟩) := by
      rw [hd, heapDown_getElem?_ge _ i (h.length - 1) (h.length - 1) (Nat.le_refl _)]
      exact swapL_getElem?_right h i (h.length - 1) hi (by omega)
    have hperm3 : (if i < d.2 then d.1 else heapUp d.1 i).Perm h := by
      split
      · exact hperm1
      · exact (heapUp_perm d.1 i).trans hperm1
    have helem3 : (if i < d.2 then d.1 else heapUp d.1 i)[h.length - 1]? =
        some (h.get ⟨i, hi⟩) := by
      split
      · exact helem1
      · rw [heapUp_getElem?_above d.1 i (h.length - 1) hin]
        exact helem1
    have hlen3 : (if i < d.2 then d.1 else heapUp d.1 i).length = (h.length - 1) + 1 := by
      rw [hperm3.length_eq]
      omega
    exact (cons_take_perm _ (h.length - 1) hlen3 _ helem3).trans hperm3

theorem removeByKey_cases (h : List HeapEntry) (k : ByteStr) :
    (removeByKey h k = h ∧ ∀ e ∈ h, e.key ≠ k) ∨
    (∃ e, e.key = k ∧ (e :: removeByKey h k).Perm h) := by
  unfold removeByKey
  cases hf : h.findIdx? (fun e => e.key == k) with
  | none =>
    left
    refine ⟨rfl, ?_⟩
    intro e he hk
    have := List.findIdx?_eq_none_iff.mp hf e he
    simp [hk] at this
  | some i =>
    right
    obtain ⟨hi, hidx⟩ := List.findIdx?_eq_some_iff_findIdx_eq.mp hf
    refine ⟨h.get ⟨i, hi⟩, ?_, heapRemoveAtGo_perm h i hi⟩
    subst hidx
    have hw : h.findIdx (fun e => e.key == k) < h.length := hi
    have hp := @List.findIdx_getElem _ (fun e => e.key == k) h hw
    simp only [beq_iff_eq] at hp
    exact hp

theorem removeByKey_keyCount_self (h : List HeapEntry) (k : ByteStr)
    (hle : keyCount h k ≤ 1) : keyCount (removeByKey h k) k = 0 := by
  rcases removeByKey_cases h k with ⟨heq, hnone⟩ | ⟨e, hek, hperm⟩
  · rw [heq]
    unfold keyCount
    rw [List.countP_eq_zero]
    intro e he
    simp [hnone e he]
  · have := hperm.countP_eq (fun e => e.key == k)
    unfold keyCount at *
    rw [List.countP_cons] at this
    simp only [hek, beq_self_eq_true, if_true, reduceIte] at this
    omega

theorem removeByKey_keyCount_other (h : List HeapEntry) (k k' : ByteStr) (hne : k' ≠ k) :
    keyCount (removeByKey h k) k' = keyCount h k' := by
  rcases removeByKey_cases h k with ⟨heq, _⟩ | ⟨e, hek, hperm⟩
  · rw [heq]
  · have := hperm.countP_eq (fun e => e.key == k')
    unfold keyCount at *
    rw [List.countP_cons] at this
    have hne2 : (e.key == k') = false := by
      rw [beq_eq_false_iff_ne, hek]
      exact fun hx => hne hx.symm
    simp [hne2] at this
    omega

theorem removeByKey_subset (h : List HeapEntry) (k : ByteStr) :
    ∀ e ∈ removeByKey h k, e ∈ h := by
  intro e he
  rcases removeByKey_cases h k with ⟨heq, _⟩ | ⟨x, _, hperm⟩
  · rw [heq] at he
    exact he
  · exact hperm.mem_iff.mp (List.mem_cons_of_mem x he)

/-! ### Association list lemmas -/

theorem lookupA_eraseA_self (m : List (ByteStr × ValueWithTTL)) (k : ByteStr) :
    lookupA (eraseA m k) k = none := by
  induction m with
  | nil => rfl
  | cons p rest ih =>
    by_cases hp : p.1 = k
    · simpa [eraseA, lookupA, hp] using ih
    · simpa [eraseA, lookupA, hp] using ih

theorem lookupA_eraseA_ne (m : List (ByteStr × ValueWithTTL)) (k k' : ByteStr)
    (hne : k' ≠ k) : lookupA (eraseA m k) k' = lookupA m k' := by
  induction m with
  | nil => rfl
  | cons p rest ih =>
    unfold eraseA at ih ⊢
    simp only [decide_not] at ih ⊢
    rw [List.filter_cons]
    by_cases hp : p.1 = k
    · have hpk : p.1 ≠ k' := by
        rw [hp]
        exact fun he => hne he.symm
      have hcond : (!decide (p.1 = k)) = false := by simp [hp]
      rw [hcond]
      simp only [Bool.false_eq_true, if_false, reduceIte]
      rw [ih]
      simp [lookupA, hpk]
    · have hcond : (!decide (p.1 = k)) = true := by simp [hp]
      rw [hcond]
      simp only [if_true, reduceIte]
      by_cases hp' : p.1 = k'
      · simp [lookupA, hp']
      · simp [lookupA, hp', ih]

theorem lookupA_insertA_self (m : List (ByteStr × ValueWithTTL)) (k : ByteStr)
    (v : ValueWithTTL) : lookupA (insertA m k v) k = some v := by
  simp [insertA, lookupA]

theorem lookupA_insertA_ne (m : List (ByteStr × ValueWithTTL)) (k k' : ByteStr)
    (v : ValueWithTTL) (hne : k' ≠ k) :
    lookupA (insertA m k v) k' = lookupA m k' := by
  have : k ≠ k' := fun he => hne he.symm
  simp [insertA, lookupA, this]
  exact lookupA_eraseA_ne m k k' hne

/-! ### Shard invariant preservation -/

theorem keyCount_eq_zero_iff (h : List HeapEntry) (k : ByteStr) :
    keyCount h k = 0 ↔ ∀ e ∈ h, e.key ≠ k := by
  unfold keyCount
  rw [List.countP_eq_zero]
  constructor
  · intro hz e he hk
    exact hz e he (by simp [hk])
  · intro hz e he
    simp [hz e he]

theorem keyCount_pos_of_mem {h : List HeapEntry} {e : HeapEntry} (he : e ∈ h)
    {k : ByteStr} (hk : e.key = k) : 0 < keyCount h k := by
  unfold keyCount
  rw [List.countP_pos_iff]
  exact ⟨e, he, by simp [hk]⟩

theorem keyCount_perm {h h' : List HeapEntry} (hp : h.Perm h') (k : ByteStr) :
    keyCount h k = keyCount h' k := by
  unfold keyCount
  exact hp.countP_eq _

theorem keyCount_cons (e : HeapEntry) (h : List HeapEntry) (k : ByteStr) :
    keyCount (e :: h) k = keyCount h k + (if e.key = k then 1 else 0) := by
  unfold keyCount
  rw [List.countP_cons]
  by_cases hk : e.key = k <;> simp [hk]

theorem setShard_spec (sh : MapShard) (k v : ByteStr) (ttl now : Int)
    (hinv : InvShard sh) :
    InvShard (setShard sh k v ttl now) ∧ keyCount (setShard sh k v ttl now).heap k = 1 := by
  obtain ⟨hmatch, hcnt⟩ := hinv
  set h1 := if (lookupA sh.store k).isSome then removeByKey sh.heap k else sh.heap with hh1
  have h1sub : ∀ e ∈ h1, e ∈ sh.heap := by
    rw [hh1]
    split
    · exact removeByKey_subset sh.heap k
    · intro e he
      exact he
  have h1self : keyCount h1 k = 0 := by
    rw [hh1]
    split
    · exact removeByKey_keyCount_self sh.heap k (hcnt k)
    case isFalse hns =>
      rw [keyCount_eq_zero_iff]
      intro e he hk
      have := hmatch e he
      rw [hk] at this
      rw [this] at hns
      exact hns (by simp)
  have h1other : ∀ k', k' ≠ k → keyCount h1 k' ≤ keyCount sh.heap k' := by
    intro k' hk'
    rw [hh1]
    split
    · rw [removeByKey_keyCount_other sh.heap k k' hk']
    · exact Nat.le_refl _
  have hperm : (setShard sh k v ttl now).heap.Perm
      (⟨k, ⟨v, if ttl = 0 then 0 else now + ttl⟩⟩ :: h1) := by
    unfold setShard
    exact heapPushGo_perm _ _
  have hstore : (setShard sh k v ttl now).store =
      insertA sh.store k ⟨v, if ttl = 0 then 0 else now + ttl⟩ := rfl
  constructor
  · constructor
    · intro e he
      rw [hstore]
      have := hperm.mem_iff.mp he
      rcases List.mem_cons.mp this with heq | hmem
      · subst heq
        exact lookupA_insertA_self sh.store k _
      · have hek : e.key ≠ k := by
          intro hk
          have := keyCount_pos_of_mem hmem hk
          omega
        rw [lookupA_insertA_ne sh.store k e.key _ hek]
        exact hmatch e (h1sub e hmem)
    · intro k'
      rw [keyCount_perm hperm, keyCount_cons]
      by_cases hk' : k' = k
      · subst hk'
        simp [h1self]
      · have := h1other k' hk'
        have := hcnt k'
        simp only [show ¬((⟨k, ⟨v, if ttl = 0 then 0 else now + ttl⟩⟩ : HeapEntry).key = k') from
          fun he => hk' (he.symm), if_false, reduceIte]
        omega
  · rw [keyCount_perm hperm, keyCount_cons, h1self]
    simp

theorem deleteShard_spec (sh : MapShard) (k : ByteStr) (hinv : InvShard sh) :
    InvShard (deleteShard sh k) := by
  obtain ⟨hmatch, hcnt⟩ := hinv
  have h0 : keyCount (removeByKey sh.heap k) k = 0 :=
    removeByKey_keyCount_self sh.heap k (hcnt k)
  constructor
  · intro e he
    have he' : e ∈ removeByKey sh.heap k := he
    have hek : e.key ≠ k := by
      intro hk
      have := keyCount_pos_of_mem he' hk
      omega
    show lookupA (eraseA sh.store k) e.key = some e.vtl
    rw [lookupA_eraseA_ne sh.store k e.key hek]
    exact hmatch e (removeByKey_subset sh.heap k e he')
  · intro k'
    show keyCount (removeByKey sh.heap k) k' ≤ 1
    by_cases hk' : k' = k
    · subst hk'
      omega
    · rw [removeByKey_keyCount_other sh.heap k k' hk']
      exact hcnt k'

theorem cleanupLoop_spec (fuel : Nat) : ∀ (sh : MapShard) (now : Int), InvShard sh →
    InvShard (cleanupLoop fuel sh now) ∧
    ∀ k val, lookupA sh.store k = some val → val.expiration ≤ 0 →
      lookupA (cleanupLoop fuel sh now).store k = some val := by
  induction fuel with
  | zero =>
    intro sh now hinv
    exact ⟨hinv, fun k val hv _ => hv⟩
  | succ fu ih =>
    intro sh now hinv
    unfold cleanupLoop
    by_cases hne : sh.heap = []
    · rw [if_pos hne]
      exact ⟨hinv, fun k val hv _ => hv⟩
    · rw [if_neg hne]
      dsimp only
      obtain ⟨hmatch, hcnt⟩ := hinv
      have hpop := heapPopGo_spec sh.heap hne
      by_cases hlt : now < (heapPopGo sh.heap).1.vtl.expiration
      · rw [if_pos hlt]
        have hperm : (heapPushGo (heapPopGo sh.heap).2 (heapPopGo sh.heap).1).Perm sh.heap :=
          (heapPushGo_perm _ _).trans hpop
        refine ⟨⟨?_, ?_⟩, fun k val hv _ => hv⟩
        · intro e he
          exact hmatch e (hperm.mem_iff.mp he)
        · intro k'
          rw [keyCount_perm hperm]
          exact hcnt k'
      · rw [if_neg hlt]
        have hmem0 : (heapPopGo sh.heap).1 ∈ sh.heap :=
          hpop.mem_iff.mp (List.mem_cons_self _ _)
        have hsub : ∀ e ∈ (heapPopGo sh.heap).2, e ∈ sh.heap := by
          intro e he
          exact hpop.mem_iff.mp (List.mem_cons_of_mem _ he)
        have hcnt2 : ∀ k', keyCount (heapPopGo sh.heap).2 k' ≤ keyCount sh.heap k' := by
          intro k'
          rw [← keyCount_perm hpop, keyCount_cons]
          omega
        have hinv' : InvShard
            { store := if 0 < (heapPopGo sh.heap).1.vtl.expiration ∧
                  (heapPopGo sh.heap).1.vtl.expiration < now
                then eraseA sh.store (heapPopGo sh.heap).1.key else sh.store,
              heap := (heapPopGo sh.heap).2 } := by
          constructor
          · intro e he
            have he' : e ∈ (heapPopGo sh.heap).2 := he
            have hold := hmatch e (hsub e he')
            show lookupA (if 0 < (heapPopGo sh.heap).1.vtl.expiration ∧
                  (heapPopGo sh.heap).1.vtl.expiration < now
                then eraseA sh.store (heapPopGo sh.heap).1.key else sh.store) e.key = some e.vtl
            split
            next hdel =>
              have hek : e.key ≠ (heapPopGo sh.heap).1.key := by
                intro hk
                have h2 : 1 ≤ keyCount (heapPopGo sh.heap).2 (heapPopGo sh.heap).1.key := by
                  have := keyCount_pos_of_mem he' hk
                  omega
                have h3 := keyCount_perm hpop (heapPopGo sh.heap).1.key
                rw [keyCount_cons] at h3
                simp at h3
                have := hcnt (heapPopGo sh.heap).1.key
                omega
              rw [lookupA_eraseA_ne sh.store _ e.key hek]
              exact hold
            next => exact hold
          · intro k'
            show keyCount (heapPopGo sh.heap).2 k' ≤ 1
            exact Nat.le_trans (hcnt2 k') (hcnt k')
        obtain ⟨ihinv, ihpres⟩ := ih _ now hinv'
        refine ⟨ihinv, ?_⟩
        intro k val hv hexp
        refine ihpres k val ?_ hexp
        show lookupA (if 0 < (heapPopGo sh.heap).1.vtl.expiration ∧
              (heapPopGo sh.heap).1.vtl.expiration < now
            then eraseA sh.store (heapPopGo sh.heap).1.key else sh.store) k = some val
        split
        next hdel =>
          have hne2 : (heapPopGo sh.heap).1.key ≠ k := by
            intro hk
            have hm := hmatch _ hmem0
            rw [hk, hv] at hm
            have hvv : val = (heapPopGo sh.heap).1.vtl := by
              injection hm
            rw [hvv] at hexp
            omega
          rw [lookupA_eraseA_ne sh.store _ k (fun he => hne2 he.symm)]
          exact hv
        next => exact hv

theorem cleanupShard_spec (sh : MapShard) (now : Int) (hinv : InvShard sh) :
    InvShard (cleanupShard sh now) ∧
    ∀ k val, lookupA sh.store k = some val → val.expiration ≤ 0 →
      lookupA (cleanupShard sh now).store k = some val :=
  cleanupLoop_spec sh.heap.length sh now hinv

theorem cleanupLoop_adequate (f1 : Nat) : ∀ (f2 : Nat) (sh : MapShard) (now : Int),
    sh.heap.length ≤ f1 → sh.heap.length ≤ f2 →
    cleanupLoop f1 sh now = cleanupLoop f2 sh now := by
  induction f1 with
  | zero =>
    intro f2 sh now h1 h2
    have hemp : sh.heap = [] := List.length_eq_zero.mp (by omega)
    cases f2 with
    | zero => rfl
    | succ f2' =>
      unfold cleanupLoop
      rw [if_pos hemp]
  | succ fu ih =>
    intro f2 sh now h1 h2
    cases f2 with
    | zero =>
      have hemp : sh.heap = [] := List.length_eq_zero.mp (by omega)
      unfold cleanupLoop
      rw [if_pos hemp]
    | succ f2' =>
      unfold cleanupLoop
      by_cases hne : sh.heap = []
      · rw [if_pos hne, if_pos hne]
      · rw [if_neg hne, if_neg hne]
        dsimp only
        by_cases hlt : now < (heapPopGo sh.heap).1.vtl.expiration
        · rw [if_pos hlt, if_pos hlt]
        · rw [if_neg hlt, if_neg hlt]
          have hlen := heapPopGo_length sh.heap hne
          have hlen2 : 0 < sh.heap.length := List.length_pos.mpr hne
          exact ih f2' _ now (by simpa [hlen] using by omega) (by simpa [hlen] using by omega)

/-! ### Store-level lemmas -/

theorem emptyStore_wf (n : Nat) (hn : 0 < n) : WFStore (emptyStore n) :=
  ⟨hn, by simp [emptyStore]⟩

theorem modifyShard_numShards (s : Store) (i : Nat) (f : MapShard → MapShard) :
    (modifyShard s i f).numShards = s.numShards := by
  unfold modifyShard
  split <;> rfl

theorem modifyShard_wf (s : Store) (i : Nat) (f : MapShard → MapShard) (hwf : WFStore s) :
    WFStore (modifyShard s i f) := by
  unfold modifyShard
  split
  · exact ⟨hwf.1, by simpa using hwf.2⟩
  · exact hwf

theorem setStore_wf (s : Store) (k v : ByteStr) (ttl now : Int) (hwf : WFStore s) :
    WFStore (setStore s k v ttl now) :=
  modifyShard_wf s _ _ hwf

theorem deleteStore_wf (s : Store) (k : ByteStr) (hwf : WFStore s) :
    WFStore (deleteStore s k) :=
  modifyShard_wf s _ _ hwf

theorem lookupStore_empty (n : Nat) (k : ByteStr) : lookupStore (emptyStore n) k = none := by
  unfold lookupStore
  cases hx : (emptyStore n).shards[shardIdx (emptyStore n) k]? with
  | none => rfl
  | some sh =>
    obtain ⟨hlt, hget⟩ := List.getElem?_eq_some_iff.mp hx
    have : sh = ⟨[], []⟩ := by
      have := List.getElem_mem hlt
      rw [hget] at this
      exact (List.mem_replicate.mp (by simpa [emptyStore] using this)).2
    rw [this]
    rfl

theorem shardIdx_modify (s : Store) (i : Nat) (f : MapShard → MapShard) (k : ByteStr) :
    shardIdx (modifyShard s i f) k = shardIdx s k := by
  unfold shardIdx
  rw [modifyShard_numShards]

theorem modifyShard_getElem? (s : Store) (i : Nat) (f : MapShard → MapShard)
    (sh : MapShard) (hsh : s.shards[i]? = some sh) (j : Nat) :
    (modifyShard s i f).shards[j]? =
      if j = i then some (f sh) else s.shards[j]? := by
  have hlt : i < s.shards.length := (List.getElem?_eq_some_iff.mp hsh).1
  unfold modifyShard
  rw [hsh]
  simp only
  by_cases hj : j = i
  · subst hj
    rw [List.getElem?_set_self hlt]
    simp
  · rw [List.getElem?_set_ne (fun he => hj he.symm)]
    simp [hj]

theorem lookupStore_modify_calc (s : Store) (i : Nat) (f : MapShard → MapShard)
    (sh : MapShard) (hsh : s.shards[i]? = some sh) (k' : ByteStr) :
    lookupStore (modifyShard s i f) k' =
      if shardIdx s k' = i then lookupA (f sh).store k' else lookupStore s k' := by
  have h2 : shardIdx (modifyShard s i f) k' = shardIdx s k' := shardIdx_modify s i f k'
  unfold lookupStore
  rw [h2, modifyShard_getElem? s i f sh hsh (shardIdx s k')]
  by_cases hj : shardIdx s k' = i
  · simp [hj]
  · simp [hj]

theorem lookupStore_some_shard (s : Store) (k : ByteStr) (sh : MapShard)
    (hsh : s.shards[shardIdx s k]? = some sh) :
    lookupStore s k = lookupA sh.store k := by
  unfold lookupStore
  rw [hsh]

theorem shard_exists (s : Store) (k : ByteStr) (hwf : WFStore s) :
    ∃ sh, s.shards[shardIdx s k]? = some sh := by
  have hidx : shardIdx s k < s.shards.length := by
    rw [hwf.2]
    exact Nat.mod_lt _ hwf.1
  exact ⟨s.shards.get ⟨shardIdx s k, hidx⟩, List.getElem?_eq_getElem hidx⟩

theorem lookupStore_setStore (s : Store) (k v : ByteStr) (ttl now : Int) (k' : ByteStr)
    (hwf : WFStore s) :
    lookupStore (setStore s k v ttl now) k' =
      if k' = k then some ⟨v, if ttl = 0 then 0 else now + ttl⟩ else lookupStore s k' := by
  obtain ⟨sh, hsh⟩ := shard_exists s k hwf
  unfold setStore
  rw [lookupStore_modify_calc s _ _ sh hsh k']
  by_cases hk : k' = k
  · subst hk
    rw [if_pos rfl, if_pos rfl]
    exact lookupA_insertA_self _ _ _
  · rw [if_neg hk]
    by_cases hsame : shardIdx s k' = shardIdx s k
    · rw [if_pos hsame]
      rw [lookupStore_some_shard s k' sh (hsame ▸ hsh)]
      exact lookupA_insertA_ne _ _ _ _ hk
    · rw [if_neg hsame]

theorem lookupStore_deleteStore (s : Store) (k k' : ByteStr) (hwf : WFStore s) :
    lookupStore (deleteStore s k) k' =
      if k' = k then none else lookupStore s k' := by
  obtain ⟨sh, hsh⟩ := shard_exists s k hwf
  unfold deleteStore
  rw [lookupStore_modify_calc s _ _ sh hsh k']
  by_cases hk : k' = k
  · subst hk
    rw [if_pos rfl, if_pos rfl]
    exact lookupA_eraseA_self _ _
  · rw [if_neg hk]
    by_cases hsame : shardIdx s k' = shardIdx s k
    · rw [if_pos hsame]
      rw [lookupStore_some_shard s k' sh (hsame ▸ hsh)]
      exact lookupA_eraseA_ne _ _ _ hk
    · rw [if_neg hsame]

theorem modifyShard_inv (s : Store) (i : Nat) (f : MapShard → MapShard)
    (hs : StoreInv s) (hf : ∀ sh, InvShard sh → InvShard (f sh)) :
    StoreInv (modifyShard s i f) := by
  unfold modifyShard
  split
  case h_1 sh hx =>
    intro sh' hmem
    rcases List.mem_or_eq_of_mem_set hmem with hold | hnew
    · exact hs sh' hold
    · rw [hnew]
      obtain ⟨hlt, hget⟩ := List.getElem?_eq_some_iff.mp hx
      refine hf sh ?_
      refine hs sh ?_
      rw [← hget]
      exact List.getElem_mem hlt
  case h_2 => exact hs

theorem emptyStore_inv (n : Nat) : StoreInv (emptyStore n) := by
  intro sh hmem
  have : sh = ⟨[], []⟩ := (List.mem_replicate.mp (by simpa [emptyStore] using hmem)).2
  rw [this]
  exact ⟨fun e he => absurd he (List.not_mem_nil e), fun k => by simp [keyCount]⟩

theorem setStore_inv (s : Store) (k v : ByteStr) (ttl now : Int) (hs : StoreInv s) :
    StoreInv (setStore s k v ttl now) :=
  modifyShard_inv s _ _ hs (fun sh hinv => (setShard_spec sh k v ttl now hinv).1)

theorem deleteStore_inv (s : Store) (k : ByteStr) (hs : StoreInv s) :
    StoreInv (deleteStore s k) :=
  modifyShard_inv s _ _ hs (fun sh hinv => deleteShard_spec sh k hinv)

theorem cleanupStore_inv (s : Store) (now : Int) (hs : StoreInv s) :
    StoreInv (cleanupStore s now) := by
  intro sh hmem
  unfold cleanupStore at hmem
  simp only [List.mem_map] at hmem
  obtain ⟨sh0, hsh0, heq⟩ := hmem
  rw [← heq]
  exact (cleanupShard_spec sh0 now (hs sh0 hsh0)).1

theorem getStore_inv (s : Store) (k : ByteStr) (now : Int) (hs : StoreInv s) :
    StoreInv (getStore s k now).2 := by
  unfold getStore
  split
  · exact hs
  · split
    · exact deleteStore_inv s k hs
    · exact hs

/-- The shard invariant holds in every reachable store state. -/
theorem reach_inv {s : Store} (hr : Reach s) : StoreInv s := by
  induction hr with
  | empty n => exact emptyStore_inv n
  | set k v ttl now _ ih => exact setStore_inv _ k v ttl now ih
  | del k _ ih => exact deleteStore_inv _ k ih
  | get k now _ ih => exact getStore_inv _ k now ih
  | cleanup now _ ih => exact cleanupStore_inv _ now ih

/-- After a `Set`, the written key has exactly one heap node in its shard
(whatever the TTL, including `ttl = 0`). -/
theorem setStore_keyCount (s : Store) (k v : ByteStr) (ttl now : Int) (hs : StoreInv s)
    (sh' : MapShard) (hx : (setStore s k v ttl now).shards[shardIdx s k]? = some sh') :
    keyCount sh'.heap k = 1 := by
  unfold setStore modifyShard at hx
  cases hy : s.shards[shardIdx s k]? with
  | none =>
    rw [hy] at hx
    simp only at hx
    rw [hy] at hx
    exact absurd hx (by simp)
  | some sh =>
    rw [hy] at hx
    simp only at hx
    obtain ⟨hlt, hget⟩ := List.getElem?_eq_some_iff.mp hy
    rw [List.getElem?_set_self (by simpa using hlt)] at hx
    have hsh' : sh' = setShard sh k v ttl now := by
      injection hx.symm
    rw [hsh']
    refine (setShard_spec sh k v ttl now ?_).2
    refine hs sh ?_
    rw [← hget]
    exact List.getElem_mem hlt

/-! ### WAL replay lemmas -/

theorem recoverList_all_ok (wal : List WEntry) (now : Int) (st : Store)
    (hck : ∀ e ∈ wal, checkEntry e = true) :
    recoverList wal now st =
      .ok (List.foldl (fun s e => applyEntry s e now) st
        (wal.filter (fun e => !entrySkipped e now))) := by
  induction wal generalizing st with
  | nil => rfl
  | cons e rest ih =>
    unfold recoverList
    rw [if_pos (hck e (List.mem_cons_self e rest))]
    rw [List.filter_cons]
    cases hsk : entrySkipped e now with
    | true =>
      simp only [hsk, if_pos rfl, Bool.not_true, Bool.false_eq_true, if_false, reduceIte]
      exact ih st (fun x hx => hck x (List.mem_cons_of_mem e hx))
    | false =>
      simp only [hsk, Bool.false_eq_true, if_false, Bool.not_false, if_true, reduceIte]
      rw [List.foldl_cons]
      exact ih _ (fun x hx => hck x (List.mem_cons_of_mem e hx))

theorem recoverList_error (pre : List WEntry) (bad : WEntry) (rest : List WEntry)
    (now : Int) (st : Store) (hck : ∀ e ∈ pre, checkEntry e = true)
    (hbad : checkEntry bad = false) :
    recoverList (pre ++ bad :: rest) now st = .error bad := by
  induction pre generalizing st with
  | nil =>
    unfold recoverList
    simp only [List.nil_append]
    rw [if_neg (by rw [hbad]; exact Bool.false_ne_true)]
  | cons e tl ih =>
    rw [List.cons_append]
    unfold recoverList
    rw [if_pos (hck e (List.mem_cons_self e tl))]
    have htl : ∀ x ∈ tl, checkEntry x = true := fun x hx => hck x (List.mem_cons_of_mem e hx)
    cases hsk : entrySkipped e now with
    | true =>
      simp only [hsk, if_pos rfl, reduceIte]
      exact ih st htl
    | false =>
      simp only [hsk, Bool.false_eq_true, if_false, reduceIte]
      exact ih _ htl

theorem applyEntry_wf (st : Store) (e : WEntry) (now : Int) (hwf : WFStore st) :
    WFStore (applyEntry st e now) := by
  unfold applyEntry
  split
  · exact setStore_wf _ _ _ _ _ hwf
  · split
    · exact deleteStore_wf _ _ hwf
    · exact hwf

theorem applyOp_wf (st : Store) (o : Op × Int) (hwf : WFStore st) :
    WFStore (applyOp st o) := by
  rcases o with ⟨o, t⟩
  cases o
  · exact setStore_wf _ _ _ _ _ hwf
  · exact deleteStore_wf _ _ hwf

theorem actSet_ne_actDelete : actSet ≠ actDelete := by decide

theorem lookup_foldl_apply (es : List WEntry) (now : Int) (st : Store) (k : ByteStr)
    (hwf : WFStore st) (hact : ∀ e ∈ es, e.action = actSet ∨ e.action = actDelete) :
    lookupStore (es.foldl (fun s e => applyEntry s e now) st) k =
      match (es.filter (fun e => e.key == k)).getLast? with
      | none => lookupStore st k
      | some e => entryFinal e now := by
  induction es generalizing st with
  | nil => rfl
  | cons e rest ih =>
    rw [List.foldl_cons, List.filter_cons]
    have hrest : ∀ x ∈ rest, x.action = actSet ∨ x.action = actDelete :=
      fun x hx => hact x (List.mem_cons_of_mem e hx)
    have hwf' : WFStore (applyEntry st e now) := applyEntry_wf st e now hwf
    have ihs := ih (applyEntry st e now) hwf' hrest
    by_cases hek : e.key = k
    · simp only [hek, beq_self_eq_true, if_true, reduceIte]
      rw [List.getLast?_cons]
      cases hlast : (rest.filter (fun x => x.key == k)).getLast? with
      | some x =>
        rw [hlast] at ihs
        simp only [Option.getD_some]
        exact ihs
      | none =>
        rw [hlast] at ihs
        simp only [Option.getD_none]
        rw [ihs]
        rcases hact e (List.mem_cons_self e rest) with hset | hdel
        · unfold applyEntry
          rw [if_pos hset]
          rw [lookupStore_setStore st e.key e.value e.ttl now k hwf]
          rw [if_pos hek.symm]
          unfold entryFinal
          rw [if_pos hset]
        · unfold applyEntry
          rw [if_neg (by rw [hdel]; exact fun hx => actSet_ne_actDelete hx.symm), if_pos hdel]
          rw [lookupStore_deleteStore st e.key k hwf]
          rw [if_pos hek.symm]
          unfold entryFinal
          rw [if_neg (by rw [hdel]; exact fun hx => actSet_ne_actDelete hx.symm)]
    · have hbek : (e.key == k) = false := by
        rw [beq_eq_false_iff_ne]
        exact hek
      simp only [hbek, Bool.false_eq_true, if_false, reduceIte]
      rw [ihs]
      have hsame : lookupStore (applyEntry st e now) k = lookupStore st k := by
        unfold applyEntry
        split
        · rw [lookupStore_setStore st e.key e.value e.ttl now k hwf]
          rw [if_neg (fun hx => hek hx.symm)]
        · split
          · rw [lookupStore_deleteStore st e.key k hwf]
            rw [if_neg (fun hx => hek hx.symm)]
          · rfl
      cases (rest.filter (fun x => x.key == k)).getLast? with
      | none => exact hsame
      | some x => rfl

theorem lookup_runOps (ops : List (Op × Int)) (st : Store) (k : ByteStr) (hwf : WFStore st) :
    lookupStore (runOps st ops) k =
      match (keyOps k ops).getLast? with
      | none => lookupStore st k
      | some o => opFinal o := by
  induction ops generalizing st with
  | nil => rfl
  | cons o rest ih =>
    unfold runOps keyOps at *
    rw [List.foldl_cons, List.filter_cons]
    have hwf' : WFStore (applyOp st o) := applyOp_wf st o hwf
    have ihs := ih (applyOp st o) hwf'
    by_cases hok : opKey o = k
    · simp only [hok, beq_self_eq_true, if_true, reduceIte]
      rw [List.getLast?_cons]
      cases hlast : (rest.filter (fun x => opKey x == k)).getLast? with
      | some x =>
        rw [hlast] at ihs
        simp only [Option.getD_some]
        exact ihs
      | none =>
        rw [hlast] at ihs
        simp only [Option.getD_none]
        rw [ihs]
        rcases o with ⟨o, t⟩
        cases o with
        | set k0 v ttl =>
          have hk0 : k0 = k := hok
          show lookupStore (setStore st k0 v ttl t) k = opFinal (Op.set k0 v ttl, t)
          rw [lookupStore_setStore st k0 v ttl t k hwf, if_pos hk0.symm]
          rfl
        | del k0 =>
          have hk0 : k0 = k := hok
          show lookupStore (deleteStore st k0) k = opFinal (Op.del k0, t)
          rw [lookupStore_deleteStore st k0 k hwf, if_pos hk0.symm]
          rfl
    · have hbek : (opKey o == k) = false := by
        rw [beq_eq_false_iff_ne]
        exact hok
      simp only [hbek, Bool.false_eq_true, if_false, reduceIte]
      rw [ihs]
      have hsame : lookupStore (applyOp st o) k = lookupStore st k := by
        rcases o with ⟨o, t⟩
        cases o with
        | set k0 v ttl =>
          show lookupStore (setStore st k0 v ttl t) k = lookupStore st k
          rw [lookupStore_setStore st k0 v ttl t k hwf]
          exact if_neg (fun hx => hok hx.symm)
        | del k0 =>
          show lookupStore (deleteStore st k0) k = lookupStore st k
          rw [lookupStore_deleteStore st k0 k hwf]
          exact if_neg (fun hx => hok hx.symm)
      cases (rest.filter (fun x => opKey x == k)).getLast? with
      | none => exact hsame
      | some x => rfl


/-! ### Round-trip agreement machinery -/

theorem walRecordOf_key (o : Op × Int) : (walRecordOf o).key = opKey o := by
  rcases o with ⟨o, t⟩
  cases o <;> rfl

theorem walRecordOf_check (o : Op × Int) : checkEntry (walRecordOf o) = true := by
  rcases o with ⟨o, t⟩
  cases o <;> simp [walRecordOf, checkEntry]

theorem walRecordOf_action (o : Op × Int) :
    (walRecordOf o).action = actSet ∨ (walRecordOf o).action = actDelete := by
  rcases o with ⟨o, t⟩
  cases o
  · exact Or.inl rfl
  · exact Or.inr rfl

theorem walRecordOf_skip (o : Op × Int) (now : Int) :
    entrySkipped (walRecordOf o) now = opSkipped o now := by
  rcases o with ⟨o, t⟩
  cases o
  · rfl
  · simp [walRecordOf, entrySkipped, opSkipped]

theorem walOf_filter_key (ops : List (Op × Int)) (k : ByteStr) :
    (walOf ops).filter (fun e => e.key == k) = (keyOps k ops).map walRecordOf := by
  unfold walOf keyOps
  rw [List.filter_map]
  congr 1
  apply List.filter_congr
  intro o _
  rw [Function.comp_apply, walRecordOf_key]

theorem walOf_filter_skip (ops : List (Op × Int)) (now : Int) (k : ByteStr) :
    ((walOf ops).filter (fun e => !entrySkipped e now)).filter (fun e => e.key == k) =
      ((keyOps k ops).filter (fun o => !opSkipped o now)).map walRecordOf := by
  rw [List.filter_filter]
  unfold walOf keyOps
  rw [List.filter_map, List.filter_filter]
  congr 1
  apply List.filter_congr
  intro o _
  rw [Function.comp_apply, walRecordOf_key, walRecordOf_skip]
  rw [Bool.and_comm]

theorem getLast?_filter_of_pos {α : Type} (l : List α) (p : α → Bool) (x : α)
    (hl : l.getLast? = some x) (hp : p x = true) : (l.filter p).getLast? = some x := by
  induction l with
  | nil => simp at hl
  | cons a tl ih =>
    rw [List.getLast?_cons] at hl
    cases htl : tl.getLast? with
    | some y =>
      rw [htl] at hl
      simp only [Option.getD_some, Option.some.injEq] at hl
      subst hl
      have h2 := ih (by rw [htl])
      rw [List.filter_cons]
      split
      · rw [List.getLast?_cons, h2]
        rfl
      · exact h2
    | none =>
      have htl2 : tl = [] := List.getLast?_eq_none_iff.mp htl
      subst htl2
      simp only [List.getLast?_nil, Option.getD_none, Option.some.injEq] at hl
      subst hl
      rw [List.filter_cons, if_pos hp]
      rfl

theorem getLast?_mem_list {α : Type} {l : List α} {x : α} (h : l.getLast? = some x) :
    x ∈ l := by
  obtain ⟨hne, hx⟩ := List.mem_getLast?_eq_getLast (by rw [h]; rfl)
  rw [hx]
  exact List.getLast_mem hne

theorem getVal_lookup (s : Store) (k : ByteStr) (now : Int) :
    getVal s k now =
      match lookupStore s k with
      | none => ([], false)
      | some v =>
        if 0 < v.expiration ∧ v.expiration < now then ([], false) else (v.value, true) := by
  unfold getVal getStore
  cases lookupStore s k with
  | none => rfl
  | some v =>
    simp only
    split <;> rfl

/-- Replay of the WAL agrees with the original run at reopen time `T` on
every key whose last record was not skipped by the expiry check. -/
theorem replay_agrees (n : Nat) (hn : 0 < n) (ops : List (Op × Int)) (T : Int) (k : ByteStr)
    (htime : ∀ o ∈ ops, o.2 ≤ T)
    (hlast : ∀ o, (keyOps k ops).getLast? = some o → opSkipped o T = false) :
    ∃ R, recoverList (walOf ops) T (emptyStore n) = Except.ok R ∧
      getVal R k T = getVal (runOps (emptyStore n) ops) k T := by
  have hck : ∀ e ∈ walOf ops, checkEntry e = true := by
    intro e he
    obtain ⟨o, _, heq⟩ := List.mem_map.mp he
    rw [← heq]
    exact walRecordOf_check o
  have hwf := emptyStore_wf n hn
  refine ⟨_, recoverList_all_ok (walOf ops) T (emptyStore n) hck, ?_⟩
  have hact : ∀ e ∈ (walOf ops).filter (fun e => !entrySkipped e T),
      e.action = actSet ∨ e.action = actDelete := by
    intro e he
    obtain ⟨o, _, heq⟩ := List.mem_map.mp (List.mem_of_mem_filter he : e ∈ walOf ops)
    rw [← heq]
    exact walRecordOf_action o
  rw [getVal_lookup, getVal_lookup]
  rw [lookup_foldl_apply _ T (emptyStore n) k hwf hact]
  rw [lookup_runOps ops (emptyStore n) k hwf]
  rw [walOf_filter_skip ops T k]
  cases hl : (keyOps k ops).getLast? with
  | none =>
    have hempty : keyOps k ops = [] := List.getLast?_eq_none.mp hl
    rw [hempty]
    simp only [List.filter_nil, List.map_nil, List.getLast?_nil]
  | some o =>
    have hskip := hlast o hl
    have hfl : ((keyOps k ops).filter (fun o => !opSkipped o T)).getLast? = some o :=
      getLast?_filter_of_pos _ _ o hl (by rw [hskip]; rfl)
    have hml : (((keyOps k ops).filter (fun o => !opSkipped o T)).map walRecordOf).getLast? =
        some (walRecordOf o) := by
      rw [List.getLast?_map, hfl]
      rfl
    rw [hml]
    simp only
    have hmem : o ∈ ops := List.mem_of_mem_filter (getLast?_mem_list hl)
    have ht : o.2 ≤ T := htime o hmem
    rcases o with ⟨o, t⟩
    cases o with
    | del k0 =>
      rfl
    | set k0 v ttl =>
      unfold walRecordOf entryFinal opFinal
      rw [if_pos rfl]
      simp only
      by_cases httl : ttl = 0
      · rw [if_pos httl, if_pos httl]
      · rw [if_neg httl, if_neg httl]
        have hnoexp : ¬(t + ttl < T) := by
          unfold opSkipped at hskip
          simp only [bne_iff_ne, ne_eq, Bool.and_eq_false_iff] at hskip
          rcases hskip with h1 | h2
          · simp at h1
            exact absurd h1 httl
          · simpa using h2
        have hpos : 0 < ttl ∨ ttl = 0 := by
          rcases Int.lt_or_le 0 ttl with h | h
          · exact Or.inl h
          · right
            omega
        rcases hpos with hpos | hz
        · have c1 : ¬(0 < (T + ttl : Int) ∧ (T + ttl : Int) < T) := by omega
          have c2 : ¬(0 < (t + ttl : Int) ∧ (t + ttl : Int) < T) := by omega
          rw [if_neg c1, if_neg c2]
        · exact absurd hz httl



/-! ### Cluster manager lemmas -/

theorem addNode_idxInv (ns : List CNode) (a : String) (h : IdxInv ns) :
    IdxInv (addNode ns a) := by
  cases hf : ns.findIdx? (fun n => n.address == a) with
  | none =>
    have hlist : addNode ns a = ns ++ [⟨a, true, (ns.length : Int)⟩] := by
      unfold addNode
      rw [hf]
    rw [hlist]
    intro i hi
    simp only [List.get_eq_getElem]
    by_cases hlt : i < ns.length
    · rw [List.getElem_append_left hlt]
      exact h i hlt
    · have hlen : i < ns.length + 1 := by simpa using hi
      have hieq : i = ns.length := by omega
      rw [List.getElem_append_right (by omega)]
      subst hieq
      simp
  | some p =>
    obtain ⟨hp, hpidx⟩ := List.findIdx?_eq_some_iff_findIdx_eq.mp hf
    have hnode : ns.getD p default = ns.get ⟨p, hp⟩ := by
      rw [List.getD_eq_getElem?_getD, List.getElem?_eq_getElem hp]
      rfl
    have hidx : (ns.getD p default).index = (p : Int) := by
      rw [hnode]
      exact h p hp
    have hlist : addNode ns a = ns.set p ⟨a, true, (p : Int)⟩ := by
      unfold addNode
      rw [hf]
      simp only
      rw [hidx]
      simp
    rw [hlist]
    intro i hi
    have hi' : i < ns.length := by simpa using hi
    simp only [List.get_eq_getElem]
    by_cases hip : i = p
    · subst hip
      rw [List.getElem_set_self (by simpa using hi')]
    · rw [List.getElem_set_ne (fun he => hip he.symm)]
      exact h i hi'

theorem removeNode_idxInv (ns : List CNode) (a : String) (h : IdxInv ns) :
    IdxInv (removeNode ns a) := by
  unfold removeNode
  cases hf : ns.findIdx? (fun n => n.address == a) with
  | none => exact h
  | some p =>
    obtain ⟨hp, _⟩ := List.findIdx?_eq_some_iff_findIdx_eq.mp hf
    intro i hi
    have hi2 : i < (ns.eraseIdx p).length := by simpa using hi
    simp only [List.get_eq_getElem, List.getElem_mapIdx]
    by_cases hip : p ≤ i
    · rw [if_pos hip]
    · rw [if_neg hip]
      rw [List.getElem_eraseIdx_of_lt ns p i hi2 (by omega)]
      exact h i (by omega)

theorem health_idxInv (ns : List CNode) (p : String → Bool) (h : IdxInv ns) :
    IdxInv (ns.map (fun n => if p n.address then { n with active := false } else n)) := by
  intro i hi
  have hi' : i < ns.length := by simpa using hi
  simp only [List.get_eq_getElem, List.getElem_map]
  split
  · exact h i hi'
  · exact h i hi'

theorem filterMap_eq_map_of {α β : Type} (l : List α) (f : α → Option β) (g : α → β)
    (h : ∀ a ∈ l, f a = some (g a)) : l.filterMap f = l.map g := by
  induction l with
  | nil => rfl
  | cons a tl ih =>
    rw [List.filterMap_cons, h a (List.mem_cons_self a tl), List.map_cons]
    rw [ih (fun x hx => h x (List.mem_cons_of_mem a hx))]

theorem activeNodes_nonempty_ne_nil {ns : List CNode} (hact : activeNodes ns ≠ []) :
    ns ≠ [] := by
  intro he
  rw [he] at hact
  exact hact rfl

theorem getNodes_active_eq (ns : List CNode) (key : ByteStr) (replicas : Int)
    (hact : activeNodes ns ≠ []) :
    getNodes ns key replicas =
      some ((List.range (replicas + 1).toNat).map (fun i =>
        (activeNodes ns).getD ((crc32 key % ns.length + i) % (activeNodes ns).length)
          default)) := by
  have hlen : 0 < (activeNodes ns).length := List.length_pos.mpr hact
  unfold getNodes
  rw [if_neg (by simpa [List.isEmpty_iff] using activeNodes_nonempty_ne_nil hact)]
  rw [if_neg (by simpa [List.isEmpty_iff] using hact)]
  congr 1
  apply filterMap_eq_map_of
  intro i _
  have hmod : (crc32 key % ns.length + i) % (activeNodes ns).length <
      (activeNodes ns).length := Nat.mod_lt _ hlen
  rw [dif_pos hmod]
  congr 1
  rw [List.get_eq_getElem, List.getD_eq_getElem?_getD, List.getElem?_eq_getElem hmod]
  rfl

theorem two_le_count_of_getElem {α : Type} [DecidableEq α] (l : List α) (i j : Nat)
    (hij : i < j) (hj : j < l.length) (x : α)
    (hi : l.get ⟨i, Nat.lt_trans hij hj⟩ = x) (hjx : l.get ⟨j, hj⟩ = x) :
    2 ≤ l.count x := by
  have hsplit : l = l.take j ++ l.drop j := (List.take_append_drop j l).symm
  have h1 : x ∈ l.take j := by
    have hlt : i < (l.take j).length := by
      rw [List.length_take]
      omega
    have : (l.take j).get ⟨i, hlt⟩ = x := by
      rw [List.get_eq_getElem, List.getElem_take]
      rw [List.get_eq_getElem] at hi
      exact hi
    rw [← this]
    exact List.get_mem _ _ _
  have h2 : x ∈ l.drop j := by
    have hlt : 0 < (l.drop j).length := by
      rw [List.length_drop]
      omega
    have : (l.drop j).get ⟨0, hlt⟩ = x := by
      rw [List.get_eq_getElem, List.getElem_drop]
      rw [List.get_eq_getElem] at hjx
      simpa using hjx
    rw [← this]
    exact List.get_mem _ _ _
  have hc1 : 0 < (l.take j).count x := List.count_pos_iff.mpr h1
  have hc2 : 0 < (l.drop j).count x := List.count_pos_iff.mpr h2
  calc 2 ≤ (l.take j).count x + (l.drop j).count x := by omega
    _ = l.count x := by rw [← List.count_append, ← hsplit]

theorem setKeyFan_error_iff (nodes : List CNode) (env : String → RpcOutcome) :
    (∃ e, setKeyFan nodes env = .error e) ↔
      ∃ n ∈ nodes, n.active = true ∧ env n.address = RpcOutcome.resp false := by
  induction nodes with
  | nil =>
    simp only [setKeyFan]
    constructor
    · rintro ⟨e, he⟩
      exact absurd he (by simp)
    · rintro ⟨n, hn, _⟩
      exact absurd hn (List.not_mem_nil n)
  | cons n rest ih =>
    unfold setKeyFan
    by_cases hna : n.active
    · rw [if_pos hna]
      cases henv : env n.address with
      | dialErr =>
        rw [ih]
        constructor
        · rintro ⟨m, hm, h1, h2⟩
          exact ⟨m, List.mem_cons_of_mem n hm, h1, h2⟩
        · rintro ⟨m, hm, h1, h2⟩
          rcases List.mem_cons.mp hm with he | hm2
          · subst he
            rw [henv] at h2
            exact absurd h2 (by simp)
          · exact ⟨m, hm2, h1, h2⟩
      | callErr =>
        rw [ih]
        constructor
        · rintro ⟨m, hm, h1, h2⟩
          exact ⟨m, List.mem_cons_of_mem n hm, h1, h2⟩
        · rintro ⟨m, hm, h1, h2⟩
          rcases List.mem_cons.mp hm with he | hm2
          · subst he
            rw [henv] at h2
            exact absurd h2 (by simp)
          · exact ⟨m, hm2, h1, h2⟩
      | resp success =>
        cases success with
        | true =>
          rw [ih]
          constructor
          · rintro ⟨m, hm, h1, h2⟩
            exact ⟨m, List.mem_cons_of_mem n hm, h1, h2⟩
          · rintro ⟨m, hm, h1, h2⟩
            rcases List.mem_cons.mp hm with he | hm2
            · subst he
              rw [henv] at h2
              exact absurd h2 (by simp)
            · exact ⟨m, hm2, h1, h2⟩
        | false =>
          constructor
          · intro _
            exact ⟨n, List.mem_cons_self n rest, by simpa using hna, henv⟩
          · intro _
            exact ⟨SetErr.nodeFailed n.address, rfl⟩
    · rw [if_neg hna]
      rw [ih]
      constructor
      · rintro ⟨m, hm, h1, h2⟩
        exact ⟨m, List.mem_cons_of_mem n hm, h1, h2⟩
      · rintro ⟨m, hm, h1, h2⟩
        rcases List.mem_cons.mp hm with he | hm2
        · subst he
          exact absurd h1 (by simpa using hna)
        · exact ⟨m, hm2, h1, h2⟩

theorem setKeyFan_ok_or_error (nodes : List CNode) (env : String → RpcOutcome) :
    setKeyFan nodes env = .ok () ∨ ∃ e, setKeyFan nodes env = .error e := by
  cases hf : setKeyFan nodes env with
  | ok u =>
    left
    cases u
    rfl
  | error e => exact Or.inr ⟨e, rfl⟩

theorem getNodes_nonempty (ns : List CNode) (key : ByteStr) (replicas : Int)
    (hrep : 0 ≤ replicas) (hact : activeNodes ns ≠ []) :
    ∃ l, getNodes ns key replicas = some l ∧ l ≠ [] := by
  rw [getNodes_active_eq ns key replicas hact]
  refine ⟨_, rfl, ?_⟩
  have : (replicas + 1).toNat = replicas.toNat + 1 := by omega
  rw [this]
  simp [List.range_succ]

theorem setData_spec (registry : List CNode) (replicas : Int)
    (data : List (ByteStr × ByteStr)) (env : String → RpcOutcome)
    (hrep : 0 ≤ replicas) (hact : activeNodes registry ≠ []) :
    ∃ r, setData registry replicas data env = some r ∧
      ((∃ e, r = Except.error e) ↔
        ∃ kv ∈ data, ∃ nd ∈ (getNodes registry kv.1 replicas).getD [],
          nd.active = true ∧ env nd.address = RpcOutcome.resp false) := by
  induction data with
  | nil =>
    refine ⟨.ok true, rfl, ?_⟩
    constructor
    · rintro ⟨e, he⟩
      exact absurd he (by simp)
    · rintro ⟨kv, hkv, _⟩
      exact absurd hkv (List.not_mem_nil kv)
  | cons kv rest ih =>
    obtain ⟨k, v⟩ := kv
    obtain ⟨nodes, hget, hne⟩ := getNodes_nonempty registry k replicas hrep hact
    unfold setData
    rw [hget]
    dsimp only
    rw [if_neg (by simpa [List.isEmpty_iff] using hne)]
    rcases setKeyFan_ok_or_error nodes env with hok | ⟨e, herr⟩
    · rw [hok]
      dsimp only
      obtain ⟨r, hr, hiff⟩ := ih
      refine ⟨r, hr, ?_⟩
      rw [hiff]
      constructor
      · rintro ⟨kv2, hkv2, hex⟩
        exact ⟨kv2, List.mem_cons_of_mem _ hkv2, hex⟩
      · rintro ⟨kv2, hkv2, nd, hnd, h1, h2⟩
        rcases List.mem_cons.mp hkv2 with he | hm
        · exfalso
          have hnofail : ¬∃ n ∈ nodes, n.active = true ∧ env n.address = RpcOutcome.resp false := by
            rw [← setKeyFan_error_iff]
            rintro ⟨e2, he2⟩
            rw [hok] at he2
            exact absurd he2 (by simp)
          subst he
          rw [hget] at hnd
          exact hnofail ⟨nd, hnd, h1, h2⟩
        · exact ⟨kv2, hm, nd, hnd, h1, h2⟩
    · rw [herr]
      dsimp only
      refine ⟨Except.error e, rfl, ?_⟩
      constructor
      · intro _
        obtain ⟨nd, hnd, h1, h2⟩ := (setKeyFan_error_iff nodes env).mp ⟨e, herr⟩
        refine ⟨(k, v), List.mem_cons_self _ _, nd, ?_, h1, h2⟩
        rw [hget]
        exact hnd
      · intro _
        exact ⟨e, rfl⟩



/-! ### Claim theorems -/

/-- C1, counterexample: `Set("k", "v", 0)` from an empty one-shard store
is reachable and leaves key `"k"` in the map with expiration `0` AND with
one heap node — the claim asserts a key with expiration 0 has no heap
node. -/
theorem c1_counterexample :
    Reach (setStore (emptyStore 1) [107] [118] 0 0) ∧
    lookupStore (setStore (emptyStore 1) [107] [118] 0 0) [107] = some ⟨[118], 0⟩ ∧
    keyCount ((setStore (emptyStore 1) [107] [118] 0 0).shards.getD 0 default).heap [107] = 1 :=
  ⟨Reach.set [107] [118] 0 0 (Reach.empty 1), by decide, by decide⟩

/-- C1 (amended): in every reachable store state, every shard satisfies:
each heap node references a key currently in the shard's map and carries
exactly that entry's value and expiration, and no key has more than one
heap node; moreover `Set` pushes a heap node unconditionally, so right
after `Set(key, value, ttl)` the key has exactly one heap node even when
`ttl = 0`.  (A map entry may lack a heap node: `Cleanup` discards nodes
with expiration `≤ now` without deleting immortal or boundary entries.) -/
theorem c1_heap_invariant :
    (∀ s, Reach s → StoreInv s) ∧
    (∀ s (k v : ByteStr) (ttl now : Int) (sh' : MapShard), Reach s →
      (setStore s k v ttl now).shards[shardIdx s k]? = some sh' →
      keyCount sh'.heap k = 1) :=
  ⟨fun _ hr => reach_inv hr,
   fun s k v ttl now sh' hr hx => setStore_keyCount s k v ttl now (reach_inv hr) sh' hx⟩

/-- C1 witness: the invariant and the `Set` postcondition evaluated on a
concrete reachable store. -/
theorem c1_witness :
    StoreInv (setStore (emptyStore 1) [107] [118] 5 3) ∧
    keyCount ((setStore (emptyStore 1) [107] [118] 5 3).shards.getD 0 default).heap [107] = 1 :=
  ⟨c1_heap_invariant.1 _ (Reach.set [107] [118] 5 3 (Reach.empty 1)),
   c1_heap_invariant.2 (emptyStore 1) [107] [118] 5 3
     ((setStore (emptyStore 1) [107] [118] 5 3).shards.getD 0 default)
     (Reach.empty 1) (by decide)⟩

/-- C2 (code bug): with a non-empty registry whose only node is inactive,
`GetNodes` divides by `len(active) = 0` in `(primaryIdx + i) %
len(active)` and panics (embedded as `none`) instead of returning the
empty list; with an empty registry it does return the empty list. -/
theorem c2_all_inactive_panics :
    getNodes [⟨"a", false, 0⟩] [] 0 = none ∧ getNodes [] [] 0 = some [] :=
  ⟨rfl, rfl⟩

/-- C3, counterexample: a `"delete"` record with ttl = 1, timestamp = 0 is
SKIPPED by replay at now = 10 (the skip test ignores the action), so the
earlier `"set"` of the same key survives — the claim asserts every delete
record is applied regardless of its ttl field. -/
theorem c3_counterexample :
    (match recoverList [⟨actSet, [107], [118], 0, 0, crc32 ([107] ++ [118])⟩,
                        ⟨actDelete, [107], [], 1, 0, crc32 ([107] ++ [])⟩] 10 (emptyStore 1) with
     | Except.ok s => lookupStore s [107]
     | Except.error _ => none) = some ⟨[118], 0⟩ := by
  decide

/-- C3 (amended): during `RecoverFromWAL`, a checksum-valid record is
skipped exactly when its ttl is nonzero and timestamp + ttl < now,
regardless of its action; all other records are applied in order (`"set"`
via Set, `"delete"` via Delete, unknown actions fall through the switch). -/
theorem c3_skip_characterization (wal : List WEntry) (now : Int) (st : Store)
    (hck : ∀ e ∈ wal, checkEntry e = true) :
    recoverList wal now st =
      Except.ok (List.foldl (fun s e => applyEntry s e now) st
        (wal.filter (fun e => !entrySkipped e now))) :=
  recoverList_all_ok wal now st hck

/-- C3 witness: the characterization evaluated on the two-record log of
the counterexample. -/
theorem c3_witness :
    recoverList [⟨actSet, [107], [118], 0, 0, crc32 ([107] ++ [118])⟩,
                 ⟨actDelete, [107], [], 1, 0, crc32 ([107] ++ [])⟩] 10 (emptyStore 1) =
      Except.ok (List.foldl (fun s e => applyEntry s e 10) (emptyStore 1)
        (List.filter (fun e => !entrySkipped e 10)
          [⟨actSet, [107], [118], 0, 0, crc32 ([107] ++ [118])⟩,
           ⟨actDelete, [107], [], 1, 0, crc32 ([107] ++ [])⟩])) :=
  c3_skip_characterization _ 10 (emptyStore 1) (by decide)

/-- C4, counterexample: one active replica whose RPC dial fails — SetData
skips it with `continue` and reports overall success `some (ok true)`,
where the claim demands an error. -/
theorem c4_counterexample :
    setData [⟨"a", true, 0⟩] 0 [([107], [118])] (fun _ => RpcOutcome.dialErr) =
      some (Except.ok true) := by
  decide

/-- C4 (amended): with at least one active node and replicas ≥ 0, SetData
returns normally, and it aborts with an error exactly when some key's
fanned-out replica is active, reachable, and replies Success = false;
connection and call errors are logged and skipped silently.  For a key
whose replica set is empty it fails with "no active nodes available". -/
theorem c4_abort_characterization :
    (∀ (registry : List CNode) (replicas : Int) (data : List (ByteStr × ByteStr))
        (env : String → RpcOutcome), 0 ≤ replicas → activeNodes registry ≠ [] →
      ∃ r, setData registry replicas data env = some r ∧
        ((∃ e, r = Except.error e) ↔
          ∃ kv ∈ data, ∃ nd ∈ (getNodes registry kv.1 replicas).getD [],
            nd.active = true ∧ env nd.address = RpcOutcome.resp false)) ∧
    (∀ (registry : List CNode) (replicas : Int) (k v : ByteStr)
        (rest : List (ByteStr × ByteStr)) (env : String → RpcOutcome),
      getNodes registry k replicas = some [] →
      setData registry replicas ((k, v) :: rest) env =
        some (Except.error SetErr.noActiveNodes)) := by
  constructor
  · intro registry replicas data env hrep hact
    exact setData_spec registry replicas data env hrep hact
  · intro registry replicas k v rest env hget
    unfold setData
    rw [hget]
    rfl

/-- C4 witness: an active replica replying failure makes SetData abort,
and an empty replica set yields the "no active nodes" error. -/
theorem c4_witness :
    (∃ r, setData [⟨"a", true, 0⟩] 0 [([107], [118])] (fun _ => RpcOutcome.resp false) = some r ∧
      ((∃ e, r = Except.error e) ↔
        ∃ kv ∈ [(([107] : ByteStr), ([118] : ByteStr))],
          ∃ nd ∈ (getNodes [⟨"a", true, 0⟩] kv.1 0).getD [],
            nd.active = true ∧ (fun _ => RpcOutcome.resp false) nd.address = RpcOutcome.resp false)) ∧
    setData [] 0 [([107], [118])] (fun _ => RpcOutcome.dialErr) =
      some (Except.error SetErr.noActiveNodes) :=
  ⟨c4_abort_characterization.1 [⟨"a", true, 0⟩] 0 [([107], [118])]
     (fun _ => RpcOutcome.resp false) (by decide) (by decide),
   c4_abort_characterization.2 [] 0 [107] [118] [] (fun _ => RpcOutcome.dialErr) rfl⟩

/-- C5, counterexample: Set k v1 ttl=0 at t=1, then Set k v2 ttl=5 at t=2,
reopen at T=100.  The original store's final entry (v2, expires 7) is dead
at T, but replay skips the expired second record and resurrects v1 as a
live immortal entry — the recovered state does not equal the original
modulo expired entries. -/
theorem c5_counterexample :
    (match recoverList (walOf [(Op.set [107] [49] 0, 1), (Op.set [107] [50] 5, 2)]) 100
        (emptyStore 1) with
     | Except.ok s => getVal s [107] 100
     | Except.error _ => ([], false)) = ([49], true) ∧
    getVal (runOps (emptyStore 1) [(Op.set [107] [49] 0, 1), (Op.set [107] [50] 5, 2)])
      [107] 100 = ([], false) := by
  constructor
  · decide
  · decide

/-- C5 (amended): replaying the WAL onto a fresh store agrees with the
original store, observed through Get at the reopen time, on every key
whose last WAL record is not skipped by the expiry check (a delete, a set
with ttl = 0, or a set whose timestamp + ttl has not passed); a key whose
last record is an expired positive-ttl set may instead resurrect an
earlier value, because replay skips expired sets rather than deleting. -/
theorem c5_replay_agreement (n : Nat) (hn : 0 < n) (ops : List (Op × Int)) (T : Int)
    (k : ByteStr) (htime : ∀ o ∈ ops, o.2 ≤ T)
    (hlast : ∀ o, (keyOps k ops).getLast? = some o → opSkipped o T = false) :
    ∃ R, recoverList (walOf ops) T (emptyStore n) = Except.ok R ∧
      getVal R k T = getVal (runOps (emptyStore n) ops) k T :=
  replay_agrees n hn ops T k htime hlast

/-- C5 witness: the agreement evaluated for a single unexpired set. -/
theorem c5_witness :
    ∃ R, recoverList (walOf [(Op.set [107] [49] 3, 1)]) 2 (emptyStore 1) = Except.ok R ∧
      getVal R [107] 2 = getVal (runOps (emptyStore 1) [(Op.set [107] [49] 3, 1)]) [107] 2 :=
  c5_replay_agreement 1 (by decide) [(Op.set [107] [49] 3, 1)] 2 [107] (by decide)
    (by
      intro o ho
      have h2 : (keyOps [107] [(Op.set [107] [49] 3, 1)]).getLast? =
          some (Op.set [107] [49] 3, 1) := by decide
      rw [h2] at ho
      cases ho
      decide)

/-- C6: replay recomputes CRC32-IEEE over key ++ value; at the first
record whose stored checksum differs it returns an integrity error and
applies nothing further (the records after it are irrelevant), and
flipping one byte of the payload always produces such a mismatch, because
CRC32 detects every single-byte substitution. -/
theorem c6_checksum_rejection (pre rest : List WEntry) (act k' v' p s : ByteStr)
    (b b' : Fin 256) (ttl ts now : Int) (st : Store)
    (hb : b ≠ b') (hkv : k' ++ v' = p ++ b' :: s)
    (hpre : ∀ e ∈ pre, checkEntry e = true) :
    recoverList (pre ++ ⟨act, k', v', ttl, ts, crc32 (p ++ b :: s)⟩ :: rest) now st =
      Except.error ⟨act, k', v', ttl, ts, crc32 (p ++ b :: s)⟩ := by
  apply recoverList_error pre _ rest now st hpre
  unfold checkEntry
  simp only [hkv]
  rw [beq_eq_false_iff_ne]
  exact crc32_flip_byte_ne p s hb

/-- C6 witness: flipping the byte 9 to 2 inside a concrete record's
payload makes replay fail at that record. -/
theorem c6_witness :
    recoverList [⟨actSet, [107], [5, 9], 0, 0, crc32 [107, 5, 2]⟩,
                 ⟨actDelete, [1], [], 0, 0, crc32 ([1] ++ [])⟩] 7 (emptyStore 1) =
      Except.error ⟨actSet, [107], [5, 9], 0, 0, crc32 [107, 5, 2]⟩ :=
  c6_checksum_rejection [] [⟨actDelete, [1], [], 0, 0, crc32 ([1] ++ [])⟩]
    actSet [107] [5, 9] [107, 5] [] 2 9 0 0 7 (emptyStore 1)
    (by decide) (by decide) (by decide)

/-- C7: with ttl = 0, Set then Get returns (value, true), and after
Delete, Get returns ("", false). -/
theorem c7_set_get_roundtrip (n : Nat) (hn : 0 < n) (k v : ByteStr) (t0 t1 t2 : Int) :
    getVal (setStore (emptyStore n) k v 0 t0) k t1 = (v, true) ∧
    getVal (deleteStore (setStore (emptyStore n) k v 0 t0) k) k t2 = ([], false) := by
  have hwf := emptyStore_wf n hn
  have hwf2 := setStore_wf (emptyStore n) k v 0 t0 hwf
  constructor
  · rw [getVal_lookup, lookupStore_setStore _ _ _ _ _ _ hwf, if_pos rfl]
    dsimp only
    rw [if_pos rfl]
    rw [if_neg (by omega)]
  · rw [getVal_lookup, lookupStore_deleteStore _ _ _ hwf2, if_pos rfl]

/-- C7 witness: the round trip on the literal scenario. -/
theorem c7_witness :
    getVal (setStore (emptyStore 1) [107] [118] 0 0) [107] 5 = ([118], true) ∧
    getVal (deleteStore (setStore (emptyStore 1) [107] [118] 0 0) [107]) [107] 5 = ([], false) :=
  c7_set_get_roundtrip 1 (by decide) [107] [118] 0 5 5

/-- C8: in every reachable registry state the indices are dense and in
positional order — Nodes[i].Index = i; AddNode preserves this (in-place
overwrite for a known address, append with index = len otherwise),
RemoveNode renumbers the trailing entries, and the health checker only
flips active flags. -/
theorem c8_registry_index_dense (ns : List CNode) (hr : ReachReg ns) : IdxInv ns := by
  induction hr with
  | nil =>
    intro i hi
    simp at hi
  | add a _ ih => exact addNode_idxInv _ a ih
  | remove a _ ih => exact removeNode_idxInv _ a ih
  | health p _ ih => exact health_idxInv _ p ih

/-- C8 witness: after adding "a" and "b" and removing "a", position 0
holds index 0. -/
theorem c8_witness :
    ((removeNode (addNode (addNode [] "a") "b") "a").getD 0 default).index = 0 := by
  have h := c8_registry_index_dense (removeNode (addNode (addNode [] "a") "b") "a")
    (ReachReg.remove "a" (ReachReg.add "b" (ReachReg.add "a" ReachReg.nil)))
  have hlt : 0 < (removeNode (addNode (addNode [] "a") "b") "a").length := by decide
  have h0 := h 0 hlt
  rw [List.getD_eq_getElem?_getD, List.getElem?_eq_getElem hlt]
  simpa using h0

/-- C9: with at least one active node and replicas ≥ 0, GetNodes returns
exactly replicas + 1 entries; when fewer than replicas + 1 nodes are
active, the returned list repeats a node. -/
theorem c9_fanout_length (ns : List CNode) (key : ByteStr) (replicas : Int)
    (hrep : 0 ≤ replicas) (hact : activeNodes ns ≠ []) :
    ∃ l, getNodes ns key replicas = some l ∧ l.length = replicas.toNat + 1 ∧
      ((activeNodes ns).length ≤ replicas.toNat → ∃ x, 2 ≤ l.count x) := by
  have hlen : 0 < (activeNodes ns).length := List.length_pos.mpr hact
  have htn : (replicas + 1).toNat = replicas.toNat + 1 := by omega
  rw [getNodes_active_eq ns key replicas hact]
  refine ⟨_, rfl, ?_, ?_⟩
  · rw [List.length_map, List.length_range, htn]
  · intro hfew
    have hja : (activeNodes ns).length <
        ((List.range (replicas + 1).toNat).map (fun i =>
          (activeNodes ns).getD ((crc32 key % ns.length + i) % (activeNodes ns).length)
            default)).length := by
      rw [List.length_map, List.length_range, htn]
      omega
    refine ⟨(activeNodes ns).getD (crc32 key % ns.length % (activeNodes ns).length) default,
      two_le_count_of_getElem _ 0 (activeNodes ns).length hlen hja _ ?_ ?_⟩
    · simp only [List.get_eq_getElem, List.getElem_map, List.getElem_range, Nat.add_zero]
    · simp only [List.get_eq_getElem, List.getElem_map, List.getElem_range, Nat.add_mod_right]

/-- C9 witness: one active node, replicas = 1 — two entries, repeated. -/
theorem c9_witness :
    ∃ l, getNodes [⟨"a", true, 0⟩] [] 1 = some l ∧ l.length = (1 : Int).toNat + 1 ∧
      ((activeNodes [⟨"a", true, 0⟩]).length ≤ (1 : Int).toNat → ∃ x, 2 ≤ l.count x) :=
  c9_fanout_length [⟨"a", true, 0⟩] [] 1 (by decide) (by decide)

/-- C10: Cleanup never deletes a map entry whose expiration is 0: in any
reachable store state, a key whose entry has expiration 0 keeps exactly
that entry through Cleanup (its heap node may be popped and discarded). -/
theorem c10_cleanup_immortal (s : Store) (now : Int) (k : ByteStr) (val : ValueWithTTL)
    (hr : Reach s) (hv : lookupStore s k = some val) (hexp : val.expiration = 0) :
    lookupStore (cleanupStore s now) k = some val := by
  have hinv := reach_inv hr
  cases hy : s.shards[shardIdx s k]? with
  | none =>
    rw [lookupStore] at hv
    rw [hy] at hv
    exact absurd hv (by simp)
  | some sh =>
    have h1 : lookupStore s k = lookupA sh.store k := lookupStore_some_shard s k sh hy
    have hy2 : (cleanupStore s now).shards[shardIdx (cleanupStore s now) k]? =
        some (cleanupShard sh now) := by
      show (s.shards.map (fun sh => cleanupShard sh now))[shardIdx s k]? = _
      rw [List.getElem?_map, hy]
      rfl
    rw [lookupStore_some_shard (cleanupStore s now) k _ hy2]
    have hmem : sh ∈ s.shards := by
      obtain ⟨hlt, hget⟩ := List.getElem?_eq_some_iff.mp hy
      rw [← hget]
      exact List.getElem_mem hlt
    exact (cleanupShard_spec sh now (hinv sh hmem)).2 k val (h1.symm.trans hv) (by omega)

/-- C10 witness: an immortal entry survives a concrete Cleanup sweep. -/
theorem c10_witness :
    lookupStore (cleanupStore (setStore (emptyStore 1) [107] [118] 0 0) 99) [107] =
      some ⟨[118], 0⟩ :=
  c10_cleanup_immortal (setStore (emptyStore 1) [107] [118] 0 0) 99 [107] ⟨[118], 0⟩
    (Reach.set [107] [118] 0 0 (Reach.empty 1)) (by decide) rfl


end Memorandum
